import Mathlib

/-!
# os-find: the filter, the command invoker and the tree walker of `main.cpp`

A shallow embedding of `src/main.cpp` (LP64 Linux: `ino_t`, `nlink_t` and
`unsigned long long` are unsigned 64-bit, `off_t` is signed 64-bit) and the
properties of its filter evaluation, filter construction and directory walk.

A `std::string` is modelled by the text whose UTF-8 encoding it holds. Equality and
concatenation of the byte strings are equality and concatenation of the texts. Where the
program cuts a string after one byte (`m.second[0]`, `substr(1)`), the model tells a
one-byte first character from a longer one.
-/

namespace OsFind

deriving instance DecidableEq for Except

/-! ## Library functions used by the program -/

/-- Reasons for which `std::stoull` throws. -/
inductive StoullError where
  | invalid_argument
  | out_of_range
  deriving DecidableEq, Repr

/-- The characters `isspace` accepts in the "C" locale (the program never calls `setlocale`). -/
def isSpaceC (c : Char) : Bool :=
  c = ' ' || c = '\t' || c = '\n' || c = '\x0b' || c = '\x0c' || c = '\r'

/-- Value of a decimal digit character. -/
def digitVal (c : Char) : Nat := c.toNat - 48

/-- Value of a run of decimal digits, most significant first. -/
def decValue (ds : List Char) : Nat := ds.foldl (fun a d => 10 * a + digitVal d) 0

/-- Drops the optional sign `strtoull` accepts; the flag tells whether it was a minus. -/
def takeSign : List Char → Bool × List Char
  | [] => (false, [])
  | c :: t => if c = '-' then (true, t) else if c = '+' then (false, t) else (false, c :: t)

/-- The library function `std::stoull(str)` (base 10, no position output), as the C++ standard
defines it over `strtoull`: leading white space is skipped, one optional sign is taken, then
the longest run of decimal digits is converted and whatever follows is ignored. No digit
gives `invalid_argument`, a magnitude above `ULLONG_MAX` gives `out_of_range`, and a minus
sign negates the value in unsigned 64-bit arithmetic. White space, signs and digits are
one-byte characters and no byte of a longer character is one of them, so reading the
characters of the text is reading its bytes. -/
def stoullChars (cs : List Char) : Except StoullError Nat :=
  let body := takeSign (cs.dropWhile isSpaceC)
  let ds := body.2.takeWhile Char.isDigit
  if ds.isEmpty then .error .invalid_argument
  else if 2 ^ 64 ≤ decValue ds then .error .out_of_range
  else .ok (if body.1 then (2 ^ 64 - decValue ds) % 2 ^ 64 else decValue ds)

/-- The call `stoull(s)` on a `std::string`. -/
def stoull (s : String) : Except StoullError Nat := stoullChars s.data

/-- Conversion of an `unsigned long long` to `off_t` (signed 64-bit, two's complement). -/
def toOff (v : Nat) : Int := if v < 2 ^ 63 then (v : Int) else (v : Int) - 2 ^ 64

/-! ## Data of the program -/

/-- The `struct command`: the program path and the character arrays `argv` points to
(without the final null). -/
structure command where
  path : String
  argv : List String
  deriving DecidableEq, Repr

/-- The constructor `command()`. -/
def command.empty : command := ⟨"", []⟩

/-- The constructor `command(const string &path)`: one array allocated with `new[]`. -/
def command.ofPath (path : String) : command := ⟨path, [path]⟩

/-- The `enum COMPARATOR` of `struct filter`. -/
inductive COMPARATOR where
  | LESS
  | GREATER
  | EQUALS
  deriving DecidableEq, Repr

/-- The fields of `struct filter`. -/
structure filter where
  inodes : List Nat
  fileNames : List String
  sizes : List (Int × COMPARATOR)
  hardlinks : List Nat
  exec : command
  deriving DecidableEq, Repr

/-- The state of the fields when the constructor body starts. -/
def filter.init : filter := ⟨[], [], [], [], command.empty⟩

/-- The values of `d_type` the program tells apart; `DT_OTHER` stands for every other value
(`DT_LNK`, `DT_FIFO`, `DT_UNKNOWN`, ...). -/
inductive DType where
  | DT_DIR
  | DT_REG
  | DT_OTHER
  deriving DecidableEq, Repr

/-- The part of `struct dirent` the program reads. -/
structure dirent where
  d_ino : Nat
  d_name : String
  d_type : DType
  deriving DecidableEq, Repr

/-- The part of `struct stat` the program reads. -/
structure stat_t where
  st_nlink : Nat
  st_size : Int
  deriving DecidableEq, Repr

/-! ## `filter::filter` -/

/-- How the constructor `filter::filter` can fail. -/
inductive CtorFailure where
  /-- A `runtime_error` with this message leaves the constructor. -/
  | thrown (what : String)
  /-- The unwinding of a `throw` runs `delete[]` a second time on the array of `exec.argv`:
  the behaviour is undefined and no `runtime_error` is delivered. -/
  | doubleDelete
  deriving DecidableEq, Repr

/-- A `throw runtime_error(what)` in the constructor body while the fields are `f`. The
unwinding destroys the members, and `~command` runs `delete[]` on every pointer of
`exec.argv`. The default-constructed `exec` holds a null pointer only. After
`exec = command(m.second)` it holds a copy of the pointer of the temporary, whose
destructor has already deleted the array. -/
def filter.throwFrom (f : filter) (what : String) : Except CtorFailure filter :=
  if f.exec.argv.isEmpty then .error (.thrown what) else .error .doubleDelete

/-- The statement `off_t num = stoull(m.second.substr(1, m.second.size()))` together with
the byte `m.second[0]` read after it. On the empty string `substr` throws `out_of_range`.
When the first character is a one-byte character, the remainder is the rest of the text.
Otherwise the remainder starts with a continuation byte of that character, which is no
white space, sign or digit, and `stoull` throws `invalid_argument`. -/
def firstByteAndNumber (s : String) : Except StoullError (Char × Nat) :=
  match s.data with
  | [] => .error .out_of_range
  | c :: rest =>
    if c.toNat < 128 then
      match stoullChars rest with
      | .ok v => .ok (c, v)
      | .error e => .error e
    else .error .invalid_argument

/-- One iteration of the loop over `modifiers` in `filter::filter`; `file_exists` is the
answer of the file system to `stat` on the path. The assignment `exec = command(m.second)`
uses the implicit copy assignment: `exec.argv` is left pointing to the array the temporary
deletes, and only `exec.path` is read afterwards. -/
def filter.addModifier (file_exists : String → Bool) (f : filter) (m : String × String) :
    Except CtorFailure filter :=
  if m.1 = "-inum" then
    match stoull m.2 with
    | .ok v => .ok { f with inodes := f.inodes ++ [v] }
    | .error _ => f.throwFrom ("invalid inode number: " ++ m.2)
  else if m.1 = "-name" then
    .ok { f with fileNames := f.fileNames ++ [m.2] }
  else if m.1 = "-size" then
    match firstByteAndNumber m.2 with
    | .error _ => f.throwFrom ("invalid size: " ++ m.2)
    | .ok (c, v) =>
      let num := toOff v
      if c = '-' then .ok { f with sizes := f.sizes ++ [(num, .LESS)] }
      else if c = '=' then .ok { f with sizes := f.sizes ++ [(num, .EQUALS)] }
      else if c = '+' then .ok { f with sizes := f.sizes ++ [(num, .GREATER)] }
      else .ok f
  else if m.1 = "-nlinks" then
    match stoull m.2 with
    | .ok v => .ok { f with hardlinks := f.hardlinks ++ [v] }
    | .error _ => f.throwFrom ("invalid hardlinks number: " ++ m.2)
  else if m.1 = "-exec" then
    if !file_exists m.2 then f.throwFrom ("invalid path to executable: " ++ m.2)
    else .ok { f with exec := command.ofPath m.2 }
  else .ok f

/-- The loop of `filter::filter` continued from the fields `f`. -/
def filter.addModifiers (file_exists : String → Bool) :
    filter → List (String × String) → Except CtorFailure filter
  | f, [] => .ok f
  | f, m :: ms =>
    match filter.addModifier file_exists f m with
    | .ok g => filter.addModifiers file_exists g ms
    | .error e => .error e

/-- The constructor `filter::filter(modifiers)`. -/
def filter.ctor (file_exists : String → Bool) (modifiers : List (String × String)) :
    Except CtorFailure filter :=
  filter.addModifiers file_exists filter.init modifiers

/-! ## `filter::apply` and `filter::executable` -/

/-- The body of the `switch` in `filter::apply` for one entry of `sizes`. -/
def sizeComp (st_size : Int) (size_filter : Int × COMPARATOR) : Bool :=
  match size_filter.2 with
  | .LESS => decide (st_size < size_filter.1)
  | .EQUALS => decide (st_size = size_filter.1)
  | .GREATER => decide (st_size > size_filter.1)

/-- The method `filter::apply(file, path)`; `st` is what `stat(path)` returned, `none` when it
failed. Each loop ors its test into `tmp`, which starts as `empty()` of the vector. -/
def filter.apply (f : filter) (file : dirent) (st : Option stat_t) : Bool :=
  match st with
  | none => false
  | some st =>
    let tmp := f.inodes.foldl (fun tmp inode => tmp || decide (inode = file.d_ino)) f.inodes.isEmpty
    if !tmp then false else
    let tmp := f.fileNames.foldl (fun tmp name => tmp || decide (name = file.d_name))
      f.fileNames.isEmpty
    if !tmp then false else
    let tmp := f.hardlinks.foldl (fun tmp hardlink => tmp || decide (st.st_nlink ≠ hardlink))
      f.hardlinks.isEmpty
    if !tmp then false else
    f.sizes.foldl (fun tmp size_filter => tmp || sizeComp st.st_size size_filter) f.sizes.isEmpty

/-- The method `filter::executable()`. -/
def filter.executable (f : filter) : Bool := !f.exec.path.isEmpty

/-! ## The environment of the walk -/

/-- What one directory stream yields to successive `readdir` calls. Each entry carries its
`dirent`, the result of `stat` on its full path (`none` when `stat` fails), whether `opendir`
on its full path succeeds, what that stream would then yield, and the rest of the stream. -/
inductive Listing where
  | nil : Listing
  | cons (entry : dirent) (st : Option stat_t) (opens : Bool) (sub : Listing)
      (rest : Listing) : Listing
  deriving Repr

/-- How the operating system answers one call of `filter::invoke`. -/
inductive SpawnOutcome where
  /-- The call `fork()` returned -1 with this `errno`. -/
  | forkFailed (errno : Nat)
  /-- The call `execve` returned -1 in the child, which then calls `exit(EXIT_FAILURE)`. -/
  | execFailed
  /-- The call `waitpid` returned -1 with this `errno`. -/
  | waitFailed (errno : Nat)
  /-- The new program image ran and called `exit` with this code. -/
  | exited (code : Nat)
  /-- The child was terminated by this signal. -/
  | signaled (sig : Nat)
  deriving DecidableEq, Repr

/-- Whether the child terminates through `exit` (`WIFEXITED`). -/
def SpawnOutcome.exitsNormally : SpawnOutcome → Bool
  | .execFailed => true
  | .exited _ => true
  | _ => false

/-- What the walk does to the outside world, in order. -/
inductive Event where
  /-- The statement `cout << "Can't access directory " + path << endl`. -/
  | cantAccess (path : String)
  /-- The statement `cout << fullPath << endl`. -/
  | matched (fullPath : String)
  /-- A child process was forked and calls `execve` with this argument vector. -/
  | spawn (argv : List String)
  deriving DecidableEq, Repr

/-- The line an event writes to standard output, if any. -/
def Event.line : Event → Option String
  | .cantAccess path => some ("Can't access directory " ++ path)
  | .matched fullPath => some fullPath
  | .spawn _ => none

/-- The lines written to standard output by a sequence of events. -/
def stdoutLines (es : List Event) : List String := es.filterMap Event.line

/-- Outcome of a piece of the walk: the events it produced, the message of the
`runtime_error` that left it (if one did) and the number of `invoke` calls made so far. -/
structure Run where
  out : List Event
  err : Option String
  calls : Nat
  deriving DecidableEq, Repr

/-- Sequencing of statements: the continuation runs unless an exception is in flight. -/
def Run.andThen (r : Run) (k : Nat → Run) : Run :=
  match r.err with
  | some _ => r
  | none => let r2 := k r.calls; ⟨r.out ++ r2.out, r2.err, r2.calls⟩

/-! ## `execve`, `filter::invoke` and `walk` -/

/-- The constant `fileSeparator` (the program is not built for Windows). -/
def fileSeparator : Char := '/'

/-- The argument vector the wrapper `execve(cmd, path)` passes on (without the final null). -/
def execveArgv (cmd : command) (path : String) : List String := [cmd.path, path]

/-- The expression `"literal" + n` on a string literal: a pointer `n` characters into it
(meaningful for `n` up to the length of the literal). -/
def literalPlus (lit : String) (n : Nat) : String := String.mk (lit.data.drop n)

/-- The method `filter::invoke(path)` as the `calls`-th invocation of the run; `os` gives the
answer of the operating system to each invocation. -/
def filter.invoke (os : Nat → SpawnOutcome) (f : filter) (path : String) (calls : Nat) : Run :=
  match os calls with
  | .forkFailed errno => ⟨[], some (literalPlus "Can't create fork: " errno), calls + 1⟩
  | .execFailed => ⟨[.spawn (execveArgv f.exec path)], none, calls + 1⟩
  | .waitFailed errno =>
    ⟨[.spawn (execveArgv f.exec path)], some (literalPlus "Execution failed:" errno), calls + 1⟩
  | .exited _ => ⟨[.spawn (execveArgv f.exec path)], none, calls + 1⟩
  | .signaled sig =>
    ⟨[.spawn (execveArgv f.exec path)],
      some (literalPlus "Execution is stopped with signal: " sig), calls + 1⟩

/-- The `while` loop of `walk(path, filter)` over the entries `readdir` still has to yield.
The recursive call `walk(fullPath, filter)` is written out in place: the report when
`opendir` fails, the loop over the sub-directory otherwise. -/
def walkLoop (os : Nat → SpawnOutcome) (f : filter) (path : String) (l : Listing)
    (calls : Nat) : Run :=
  match l with
  | .nil => ⟨[], none, calls⟩
  | .cons entry st opens sub rest =>
    if entry.d_name = "." || entry.d_name = ".." then walkLoop os f path rest calls
    else
      let fullPath := path.push fileSeparator ++ entry.d_name
      match entry.d_type with
      | .DT_DIR =>
        (if !opens then Run.mk [.cantAccess fullPath] none calls
          else walkLoop os f fullPath sub calls).andThen (walkLoop os f path rest)
      | .DT_REG =>
        if f.apply entry st then
          (Run.mk [.matched fullPath] none calls).andThen fun calls =>
            if f.executable then
              (f.invoke os fullPath calls).andThen (walkLoop os f path rest)
            else walkLoop os f path rest calls
        else walkLoop os f path rest calls
      | .DT_OTHER => walkLoop os f path rest calls

/-- The function `walk(path, filter)`; `opens` tells whether `opendir(path)` succeeds and
`l` is what the stream then yields. -/
def walk (os : Nat → SpawnOutcome) (f : filter) (path : String) (opens : Bool) (l : Listing)
    (calls : Nat) : Run :=
  if !opens then ⟨[.cantAccess path], none, calls⟩
  else walkLoop os f path l calls

/-- The constructor followed by one call of `filter::apply`: whether a filter built from
`modifiers` accepts the candidate. -/
def builtFilterApply (file_exists : String → Bool) (modifiers : List (String × String))
    (file : dirent) (st : Option stat_t) : Except CtorFailure Bool :=
  match filter.ctor file_exists modifiers with
  | .ok f => .ok (f.apply file st)
  | .error e => .error e

/-! ## The criteria as the specification describes them -/

/-- The comparators of a size criterion. -/
inductive Comparator where
  | Less
  | Equal
  | Greater
  deriving DecidableEq, Repr

/-- Whether a file of `size` bytes satisfies the size criterion with comparator and number `n`:
strictly smaller, exactly equal, strictly larger. -/
def Comparator.holds : Comparator → Int → Nat → Prop
  | .Less, size, n => size < (n : Int)
  | .Equal, size, n => size = (n : Int)
  | .Greater, size, n => size > (n : Int)

instance (c : Comparator) (size : Int) (n : Nat) : Decidable (c.holds size n) := by
  cases c <;> unfold Comparator.holds <;> infer_instance

/-- The comparator a prefix character of a `-size` value stands for. -/
def prefixComparator (c : Char) : Option Comparator :=
  if c = '-' then some .Less else if c = '=' then some .Equal
  else if c = '+' then some .Greater else none

/-- The size criterion a `-size` value denotes: prefix character and number. -/
def sizeCriterion (v : String) : Option (Comparator × Nat) :=
  match v.data with
  | [] => none
  | c :: rest =>
    match prefixComparator c, stoullChars rest with
    | some cmp, .ok n => some (cmp, n)
    | _, _ => none

/-- A `-size` value with one of the three prefixes and a number below `2 ^ 63`. -/
def sizeValueOk (v : String) : Bool :=
  match sizeCriterion v with
  | some (_, n) => decide (n < 2 ^ 63)
  | none => false

/-- The number a `-inum` or `-nlinks` value denotes. -/
def numberOf (v : String) : Option Nat :=
  match stoull v with
  | .ok n => some n
  | .error _ => none

/-- The inode criteria of a modifier list, in order. -/
def inodeCriteria (ms : List (String × String)) : List Nat :=
  ms.filterMap fun m => if m.1 = "-inum" then numberOf m.2 else none

/-- The name criteria of a modifier list, in order. -/
def nameCriteria (ms : List (String × String)) : List String :=
  ms.filterMap fun m => if m.1 = "-name" then some m.2 else none

/-- The size criteria of a modifier list, in order. -/
def sizeCriteria (ms : List (String × String)) : List (Comparator × Nat) :=
  ms.filterMap fun m => if m.1 = "-size" then sizeCriterion m.2 else none

/-- The hard-link-count criteria of a modifier list, in order. -/
def nlinksCriteria (ms : List (String × String)) : List Nat :=
  ms.filterMap fun m => if m.1 = "-nlinks" then numberOf m.2 else none

/-- The `COMPARATOR` value the constructor stores for a comparator. -/
def Comparator.code : Comparator → COMPARATOR
  | .Less => .LESS
  | .Equal => .EQUALS
  | .Greater => .GREATER

/-- The pair the constructor stores in `sizes` for a size criterion. -/
def sizeEntry (c : Comparator × Nat) : Int × COMPARATOR := (toOff c.2, c.1.code)

/-- A list of characters that are decimal digits. -/
def AllDigitChars (l : List Char) : Prop := ∀ c ∈ l, ∃ k, k < 10 ∧ c = Nat.digitChar k

/-! ## The walk as the specification describes it -/

/-- Full path of an entry: parent path, `/`, entry name. -/
def fullPathOf (parent : String) (name : String) : String := parent ++ "/" ++ name

/-- The full paths of the regular-file entries below `path` that the filter accepts, in
depth-first order following the listing order. Entries named `.` and `..`, entries that are
neither directories nor regular files and directories that cannot be opened give nothing. -/
def matchedPaths (f : filter) (path : String) : Listing → List String
  | .nil => []
  | .cons entry st opens sub rest =>
    (if entry.d_name = "." ∨ entry.d_name = ".." then []
      else match entry.d_type with
        | .DT_DIR => if opens then matchedPaths f (fullPathOf path entry.d_name) sub else []
        | .DT_REG => if f.apply entry st then [fullPathOf path entry.d_name] else []
        | .DT_OTHER => [])
    ++ matchedPaths f path rest

/-- Every directory the walk reaches below a listing can be opened. -/
def allReadable : Listing → Bool
  | .nil => true
  | .cons entry _ opens sub rest =>
    (if entry.d_name = "." ∨ entry.d_name = ".." then true
      else match entry.d_type with
        | .DT_DIR => opens && allReadable sub
        | _ => true)
    && allReadable rest

/-- The tree in which every directory that cannot be opened is replaced by an empty one. -/
def emptied : Listing → Listing
  | .nil => .nil
  | .cons entry st opens sub rest =>
    if entry.d_type = .DT_DIR ∧ opens = false then .cons entry st true .nil (emptied rest)
    else .cons entry st opens (emptied sub) (emptied rest)

/-- Whether an event is the report of a directory that cannot be opened. -/
def Event.isCantAccess : Event → Bool
  | .cantAccess _ => true
  | _ => false

/-- A run without its reports of directories that cannot be opened. -/
def Run.withoutCantAccess (r : Run) : Run :=
  ⟨r.out.filter fun e => !e.isCantAccess, r.err, r.calls⟩

/-- Printing each path of a list in order and, with an exec target, invoking it on the path,
until an invocation raises an error. -/
def reportAll (os : Nat → SpawnOutcome) (f : filter) : List String → Nat → Run
  | [], calls => ⟨[], none, calls⟩
  | p :: ps, calls =>
    (Run.mk [.matched p] none calls).andThen fun calls =>
      if f.executable then (f.invoke os p calls).andThen (reportAll os f ps)
      else reportAll os f ps calls

/-- The tree of the scenario: `foo.txt` of 10 bytes and `sub/bar.txt` of 200 bytes, with the
entries `.` and `..` in both directories. -/
def scenarioTree : Listing :=
  .cons ⟨100, ".", .DT_DIR⟩ none true .nil <|
  .cons ⟨2, "..", .DT_DIR⟩ none true .nil <|
  .cons ⟨101, "foo.txt", .DT_REG⟩ (some ⟨1, 10⟩) false .nil <|
  .cons ⟨102, "sub", .DT_DIR⟩ (some ⟨2, 4096⟩) true
    (.cons ⟨102, ".", .DT_DIR⟩ none true .nil <|
     .cons ⟨100, "..", .DT_DIR⟩ none true .nil <|
     .cons ⟨103, "bar.txt", .DT_REG⟩ (some ⟨1, 200⟩) false .nil .nil) <|
  .nil

/-- The lines `walk(path, filter(modifiers))` writes to standard output, or the failure of
the constructor. -/
def printedLines (file_exists : String → Bool) (os : Nat → SpawnOutcome)
    (modifiers : List (String × String)) (path : String) (opens : Bool) (l : Listing) :
    Except CtorFailure (List String) :=
  match filter.ctor file_exists modifiers with
  | .ok f => .ok (stdoutLines (walk os f path opens l 0).out)
  | .error e => .error e

/-- A sequence of events that ends with the print of a path, followed at most by one spawn. -/
def EndsAtMatch (out : List Event) : Prop :=
  ∃ before p tail, out = before ++ Event.matched p :: tail ∧
    (tail = [] ∨ ∃ argv, tail = [Event.spawn argv])

/-! # Theorems -/

/-! ## Lemmas on `filter::apply` -/

theorem foldl_or_eq_any {α : Type} (p : α → Bool) (l : List α) (b : Bool) :
    l.foldl (fun tmp x => tmp || p x) b = (b || l.any p) := by
  induction l generalizing b with
  | nil => simp
  | cons x xs ih => simp [ih, Bool.or_assoc]

/-- The method `filter::apply` as a conjunction over the four vectors. -/
theorem apply_some_eq (f : filter) (file : dirent) (st : stat_t) :
    f.apply file (some st) =
      ((f.inodes.isEmpty || f.inodes.any fun inode => decide (inode = file.d_ino)) &&
       (f.fileNames.isEmpty || f.fileNames.any fun name => decide (name = file.d_name)) &&
       (f.hardlinks.isEmpty || f.hardlinks.any fun h => decide (st.st_nlink ≠ h)) &&
       (f.sizes.isEmpty || f.sizes.any fun sf => sizeComp st.st_size sf)) := by
  simp only [filter.apply, foldl_or_eq_any]
  cases (f.inodes.isEmpty || f.inodes.any fun inode => decide (inode = file.d_ino)) <;>
  cases (f.fileNames.isEmpty || f.fileNames.any fun name => decide (name = file.d_name)) <;>
  cases (f.hardlinks.isEmpty || f.hardlinks.any fun h => decide (st.st_nlink ≠ h)) <;>
  simp

/-! ## Lemmas on `filter::filter` -/

theorem throwFrom_ne_ok (f g : filter) (what : String) : f.throwFrom what ≠ .ok g := by
  unfold filter.throwFrom
  split <;> simp

theorem firstByteAndNumber_ok (s : String) (c : Char) (v : Nat)
    (h : firstByteAndNumber s = .ok (c, v)) :
    ∃ rest, s.data = c :: rest ∧ c.toNat < 128 ∧ stoullChars rest = .ok v := by
  unfold firstByteAndNumber at h
  cases hd : s.data with
  | nil => simp [hd] at h
  | cons c2 rest =>
    simp only [hd] at h
    by_cases hc : c2.toNat < 128
    · simp only [hc, if_true] at h
      cases hs : stoullChars rest with
      | error e => simp [hs] at h
      | ok v2 =>
        simp only [hs, Except.ok.injEq, Prod.mk.injEq] at h
        obtain ⟨rfl, rfl⟩ := h
        exact ⟨rest, rfl, hc, hs⟩
    · simp [hc] at h

theorem sizeCriterion_of_data (s : String) (c : Char) (rest : List Char) (v : Nat)
    (hd : s.data = c :: rest) (hs : stoullChars rest = .ok v) :
    sizeCriterion s = (prefixComparator c).map fun cmp => (cmp, v) := by
  unfold sizeCriterion
  rw [hd]
  simp only [hs]
  cases prefixComparator c <;> rfl

theorem addModifier_fields (fe : String → Bool) (f g : filter) (m : String × String)
    (h : filter.addModifier fe f m = .ok g) :
    g.inodes = f.inodes ++ inodeCriteria [m] ∧
    g.fileNames = f.fileNames ++ nameCriteria [m] ∧
    g.hardlinks = f.hardlinks ++ nlinksCriteria [m] ∧
    g.sizes = f.sizes ++ (sizeCriteria [m]).map sizeEntry := by
  unfold filter.addModifier at h
  by_cases h1 : m.1 = "-inum"
  · simp only [h1, if_true] at h
    cases hs : stoull m.2 with
    | error e =>
      simp only [hs] at h
      exact absurd h (throwFrom_ne_ok _ _ _)
    | ok v =>
      simp [hs] at h
      subst h
      simp [inodeCriteria, nameCriteria, nlinksCriteria, sizeCriteria, h1, numberOf, hs]
  by_cases h2 : m.1 = "-name"
  · simp only [h2, if_true] at h
    simp at h
    subst h
    simp [inodeCriteria, nameCriteria, nlinksCriteria, sizeCriteria, h2]
  by_cases h3 : m.1 = "-size"
  · have h12 : ("-size" : String) ≠ "-inum" ∧ ("-size" : String) ≠ "-name" := by decide
    simp only [h3, h12.1, h12.2, if_false, if_true] at h
    cases hfb : firstByteAndNumber m.2 with
    | error e =>
      simp only [hfb] at h
      exact absurd h (throwFrom_ne_ok _ _ _)
    | ok cv =>
      obtain ⟨c, v⟩ := cv
      simp only [hfb] at h
      obtain ⟨rest, hd, _, hs⟩ := firstByteAndNumber_ok m.2 c v hfb
      have hsc := sizeCriterion_of_data m.2 c rest v hd hs
      by_cases c1 : c = '-'
      · simp [c1] at h
        subst h
        simp [inodeCriteria, nameCriteria, nlinksCriteria, sizeCriteria, h3, hsc, c1,
          prefixComparator, sizeEntry, Comparator.code]
      by_cases c2 : c = '='
      · simp [c2] at h
        subst h
        simp [inodeCriteria, nameCriteria, nlinksCriteria, sizeCriteria, h3, hsc, c2,
          prefixComparator, sizeEntry, Comparator.code]
      by_cases c3 : c = '+'
      · simp [c3] at h
        subst h
        simp [inodeCriteria, nameCriteria, nlinksCriteria, sizeCriteria, h3, hsc, c3,
          prefixComparator, sizeEntry, Comparator.code]
      simp [c1, c2, c3] at h
      subst h
      simp [inodeCriteria, nameCriteria, nlinksCriteria, sizeCriteria, h3, hsc, c1, c2, c3,
        prefixComparator]
  by_cases h4 : m.1 = "-nlinks"
  · have h123 : ("-nlinks" : String) ≠ "-inum" ∧ ("-nlinks" : String) ≠ "-name" ∧
        ("-nlinks" : String) ≠ "-size" := by decide
    simp only [h4, h123.1, h123.2.1, h123.2.2, if_true, if_false] at h
    cases hs : stoull m.2 with
    | error e =>
      simp only [hs] at h
      exact absurd h (throwFrom_ne_ok _ _ _)
    | ok v =>
      simp [hs] at h
      subst h
      simp [inodeCriteria, nameCriteria, nlinksCriteria, sizeCriteria, h4, numberOf, hs]
  by_cases h5 : m.1 = "-exec"
  · have h1234 : ("-exec" : String) ≠ "-inum" ∧ ("-exec" : String) ≠ "-name" ∧
        ("-exec" : String) ≠ "-size" ∧ ("-exec" : String) ≠ "-nlinks" := by decide
    simp only [h5, h1234.1, h1234.2.1, h1234.2.2.1, h1234.2.2.2, if_true, if_false] at h
    by_cases hfe : fe m.2
    · simp [hfe] at h
      subst h
      simp [inodeCriteria, nameCriteria, nlinksCriteria, sizeCriteria, h5]
    · simp only [hfe, Bool.not_false, if_true] at h
      exact absurd h (throwFrom_ne_ok _ _ _)
  simp only [h1, h2, h3, h4, h5, if_false] at h
  simp at h
  subst h
  simp [inodeCriteria, nameCriteria, nlinksCriteria, sizeCriteria, h1, h2, h3, h4]

theorem inodeCriteria_cons (m : String × String) (ms : List (String × String)) :
    inodeCriteria (m :: ms) = inodeCriteria [m] ++ inodeCriteria ms := by
  unfold inodeCriteria
  rw [← List.filterMap_append]; rfl

theorem nameCriteria_cons (m : String × String) (ms : List (String × String)) :
    nameCriteria (m :: ms) = nameCriteria [m] ++ nameCriteria ms := by
  unfold nameCriteria
  rw [← List.filterMap_append]; rfl

theorem nlinksCriteria_cons (m : String × String) (ms : List (String × String)) :
    nlinksCriteria (m :: ms) = nlinksCriteria [m] ++ nlinksCriteria ms := by
  unfold nlinksCriteria
  rw [← List.filterMap_append]; rfl

theorem sizeCriteria_cons (m : String × String) (ms : List (String × String)) :
    sizeCriteria (m :: ms) = sizeCriteria [m] ++ sizeCriteria ms := by
  unfold sizeCriteria
  rw [← List.filterMap_append]; rfl

/-- The vectors of a filter after the constructor loop: what it started with, followed by
the criteria of the modifiers in order. -/
theorem addModifiers_fields (fe : String → Bool) (ms : List (String × String)) :
    ∀ (f g : filter), filter.addModifiers fe f ms = .ok g →
      g.inodes = f.inodes ++ inodeCriteria ms ∧
      g.fileNames = f.fileNames ++ nameCriteria ms ∧
      g.hardlinks = f.hardlinks ++ nlinksCriteria ms ∧
      g.sizes = f.sizes ++ (sizeCriteria ms).map sizeEntry := by
  induction ms with
  | nil =>
    intro f g h
    simp only [filter.addModifiers, Except.ok.injEq] at h
    subst h
    simp [inodeCriteria, nameCriteria, nlinksCriteria, sizeCriteria]
  | cons m ms ih =>
    intro f g h
    simp only [filter.addModifiers] at h
    cases hm : filter.addModifier fe f m with
    | error e => simp [hm] at h
    | ok f1 =>
      simp only [hm] at h
      obtain ⟨a1, a2, a3, a4⟩ := addModifier_fields fe f f1 m hm
      obtain ⟨b1, b2, b3, b4⟩ := ih f1 g h
      rw [inodeCriteria_cons, nameCriteria_cons, nlinksCriteria_cons, sizeCriteria_cons]
      simp [b1, b2, b3, b4, a1, a2, a3, a4]

theorem ctor_fields (fe : String → Bool) (ms : List (String × String)) (f : filter)
    (h : filter.ctor fe ms = .ok f) :
    f.inodes = inodeCriteria ms ∧ f.fileNames = nameCriteria ms ∧
    f.hardlinks = nlinksCriteria ms ∧ f.sizes = (sizeCriteria ms).map sizeEntry := by
  have := addModifiers_fields fe ms filter.init f h
  simpa [filter.init] using this

theorem toOff_of_lt {n : Nat} (h : n < 2 ^ 63) : toOff n = (n : Int) := by
  unfold toOff
  rw [if_pos h]

theorem sizeComp_sizeEntry (size : Int) (c : Comparator × Nat) (h : c.2 < 2 ^ 63) :
    sizeComp size (sizeEntry c) = decide (c.1.holds size c.2) := by
  obtain ⟨cmp, n⟩ := c
  cases cmp <;> simp [sizeComp, sizeEntry, Comparator.code, Comparator.holds, toOff_of_lt h]

theorem sizeCriteria_lt (ms : List (String × String))
    (hs : ∀ m ∈ ms, m.1 = "-size" → sizeValueOk m.2 = true) :
    ∀ c ∈ sizeCriteria ms, c.2 < 2 ^ 63 := by
  intro c hc
  simp only [sizeCriteria, List.mem_filterMap] at hc
  obtain ⟨m, hm, hmc⟩ := hc
  by_cases h3 : m.1 = "-size"
  · have := hs m hm h3
    simp only [h3, if_true] at hmc
    simp only [sizeValueOk, hmc, decide_eq_true_eq] at this
    exact this
  · simp [h3] at hmc

theorem nlinksCriteria_eq_nil (ms : List (String × String))
    (h : ∀ m ∈ ms, m.1 ≠ "-nlinks") : nlinksCriteria ms = [] := by
  simp only [nlinksCriteria, List.filterMap_eq_nil_iff]
  intro m hm
  simp [h m hm]

/-! ## Filter evaluation -/

/-- C1: for a filter built only from `-inum`, `-name` and `-size` modifiers, each `-size`
value having a prefix `-`, `=` or `+` and a number below `2 ^ 63`, and a candidate whose
metadata can be read, `filter::apply` is true exactly when each of the three kinds has no
criterion or one the candidate meets; with names `a.txt` and `b.txt` a file named `a.txt`
matches and `c.txt` does not, and with `-name a.txt -size +100` a 50-byte `a.txt` does not
match. -/
theorem apply_iff_all_kinds :
    (∀ (fe : String → Bool) (ms : List (String × String)) (f : filter) (file : dirent)
        (st : stat_t),
      (∀ m ∈ ms, m.1 = "-inum" ∨ m.1 = "-name" ∨ m.1 = "-size") →
      (∀ m ∈ ms, m.1 = "-size" → sizeValueOk m.2 = true) →
      filter.ctor fe ms = .ok f →
      (f.apply file (some st) = true ↔
        (inodeCriteria ms = [] ∨ file.d_ino ∈ inodeCriteria ms) ∧
        (nameCriteria ms = [] ∨ file.d_name ∈ nameCriteria ms) ∧
        (sizeCriteria ms = [] ∨ ∃ c ∈ sizeCriteria ms, c.1.holds st.st_size c.2))) ∧
    (∀ (fe : String → Bool) (file : dirent) (st : stat_t), file.d_name = "a.txt" →
      builtFilterApply fe [("-name", "a.txt"), ("-name", "b.txt")] file (some st) = .ok true) ∧
    (∀ (fe : String → Bool) (file : dirent) (st : stat_t), file.d_name = "c.txt" →
      builtFilterApply fe [("-name", "a.txt"), ("-name", "b.txt")] file (some st)
        = .ok false) ∧
    (∀ (fe : String → Bool) (file : dirent) (st : stat_t), file.d_name = "a.txt" →
      st.st_size = 50 →
      builtFilterApply fe [("-name", "a.txt"), ("-size", "+100")] file (some st)
        = .ok false) := by
  refine ⟨?_, ?_, ?_, ?_⟩
  · intro fe ms f file st hk hs hc
    obtain ⟨e1, e2, e3, e4⟩ := ctor_fields fe ms f hc
    have hn : nlinksCriteria ms = [] := by
      apply nlinksCriteria_eq_nil
      intro m hm hcon
      rcases hk m hm with h | h | h <;> rw [hcon] at h <;> exact absurd h (by decide)
    have hlt := sizeCriteria_lt ms hs
    rw [apply_some_eq, e1, e2, e3, e4, hn]
    simp only [List.isEmpty_nil, Bool.true_or, Bool.and_true, Bool.and_eq_true, Bool.or_eq_true,
      List.isEmpty_iff, List.any_eq_true, decide_eq_true_eq, List.map_eq_nil_iff,
      List.mem_map]
    constructor
    · rintro ⟨⟨h1, h2⟩, h3⟩
      refine ⟨?_, ?_, ?_⟩
      · rcases h1 with h | ⟨x, hx, rfl⟩
        · exact Or.inl h
        · exact Or.inr hx
      · rcases h2 with h | ⟨x, hx, rfl⟩
        · exact Or.inl h
        · exact Or.inr hx
      · rcases h3 with h | ⟨x, ⟨c, hc1, rfl⟩, hx⟩
        · exact Or.inl h
        · right
          refine ⟨c, hc1, ?_⟩
          rw [sizeComp_sizeEntry _ _ (hlt c hc1)] at hx
          exact of_decide_eq_true hx
    · rintro ⟨h1, h2, h3⟩
      refine ⟨⟨?_, ?_⟩, ?_⟩
      · rcases h1 with h | h
        · exact Or.inl h
        · exact Or.inr ⟨_, h, rfl⟩
      · rcases h2 with h | h
        · exact Or.inl h
        · exact Or.inr ⟨_, h, rfl⟩
      · rcases h3 with h | ⟨c, hc1, hc2⟩
        · exact Or.inl h
        · right
          refine ⟨sizeEntry c, ⟨c, hc1, rfl⟩, ?_⟩
          rw [sizeComp_sizeEntry _ _ (hlt c hc1)]
          exact decide_eq_true hc2
  · intro fe file st hname
    have hc : filter.ctor fe [("-name", "a.txt"), ("-name", "b.txt")]
        = .ok ⟨[], ["a.txt", "b.txt"], [], [], command.empty⟩ := by rfl
    simp [builtFilterApply, hc, apply_some_eq, hname]
  · intro fe file st hname
    have hc : filter.ctor fe [("-name", "a.txt"), ("-name", "b.txt")]
        = .ok ⟨[], ["a.txt", "b.txt"], [], [], command.empty⟩ := by rfl
    simp [builtFilterApply, hc, apply_some_eq, hname]
  · intro fe file st hname hsize
    have hc : filter.ctor fe [("-name", "a.txt"), ("-size", "+100")]
        = .ok ⟨[], ["a.txt"], [(100, .GREATER)], [], command.empty⟩ := by rfl
    simp [builtFilterApply, hc, apply_some_eq, hname, hsize, sizeComp]

/-- Witness of C1: the modifiers `-inum 7 -name a.txt -size +100 -size =5` and the file
`a.txt` with inode 7 and 200 bytes. -/
theorem apply_iff_all_kinds_witness :
    (filter.apply ⟨[7], ["a.txt"], [(100, .GREATER), (5, .EQUALS)], [], command.empty⟩
        ⟨7, "a.txt", .DT_REG⟩ (some ⟨1, 200⟩) = true ↔
      (inodeCriteria [("-inum", "7"), ("-name", "a.txt"), ("-size", "+100"), ("-size", "=5")]
          = [] ∨
        7 ∈ inodeCriteria
          [("-inum", "7"), ("-name", "a.txt"), ("-size", "+100"), ("-size", "=5")]) ∧
      (nameCriteria [("-inum", "7"), ("-name", "a.txt"), ("-size", "+100"), ("-size", "=5")]
          = [] ∨
        "a.txt" ∈ nameCriteria
          [("-inum", "7"), ("-name", "a.txt"), ("-size", "+100"), ("-size", "=5")]) ∧
      (sizeCriteria [("-inum", "7"), ("-name", "a.txt"), ("-size", "+100"), ("-size", "=5")]
          = [] ∨
        ∃ c ∈ sizeCriteria
          [("-inum", "7"), ("-name", "a.txt"), ("-size", "+100"), ("-size", "=5")],
          c.1.holds (200 : Int) c.2)) :=
  apply_iff_all_kinds.1 (fun _ => false)
    [("-inum", "7"), ("-name", "a.txt"), ("-size", "+100"), ("-size", "=5")]
    ⟨[7], ["a.txt"], [(100, .GREATER), (5, .EQUALS)], [], command.empty⟩
    ⟨7, "a.txt", .DT_REG⟩ ⟨1, 200⟩ (by decide) (by decide) (by decide)

/-! ## Lemmas on `stoull` -/

theorem digitVal_digitChar (k : Nat) (h : k < 10) : digitVal (Nat.digitChar k) = k := by
  interval_cases k <;> rfl

theorem isDigit_digitChar (k : Nat) (h : k < 10) : (Nat.digitChar k).isDigit = true := by
  interval_cases k <;> rfl

theorem isSpaceC_digitChar (k : Nat) (h : k < 10) : isSpaceC (Nat.digitChar k) = false := by
  interval_cases k <;> rfl

theorem digitChar_ne_sign (k : Nat) (h : k < 10) :
    Nat.digitChar k ≠ '-' ∧ Nat.digitChar k ≠ '+' := by
  interval_cases k <;> decide

theorem decValue_append_singleton (l : List Char) (d : Char) :
    decValue (l ++ [d]) = 10 * decValue l + digitVal d := by
  simp [decValue, List.foldl_append]

theorem toDigitsCore_spec (fuel : Nat) :
    ∀ (n : Nat) (ds : List Char), n < fuel →
      ∃ l, Nat.toDigitsCore 10 fuel n ds = l ++ ds ∧ l ≠ [] ∧ AllDigitChars l ∧
        decValue l = n := by
  induction fuel with
  | zero => intro n ds h; omega
  | succ fuel ih =>
    intro n ds h
    unfold Nat.toDigitsCore
    by_cases h0 : n / 10 = 0
    · simp only [h0, if_true]
      refine ⟨[Nat.digitChar (n % 10)], rfl, by simp, ?_, ?_⟩
      · intro c hc
        simp only [List.mem_singleton] at hc
        exact ⟨n % 10, Nat.mod_lt _ (by decide), hc⟩
      · simp only [decValue, List.foldl_cons, List.foldl_nil]
        rw [digitVal_digitChar _ (Nat.mod_lt _ (by decide))]
        omega
    · simp only [h0, if_false]
      have hlt : n / 10 < fuel := by omega
      obtain ⟨l, hl, hne, hall, hval⟩ := ih (n / 10) (Nat.digitChar (n % 10) :: ds) hlt
      refine ⟨l ++ [Nat.digitChar (n % 10)], ?_, by simp, ?_, ?_⟩
      · rw [hl]; simp
      · intro c hc
        rcases List.mem_append.1 hc with h1 | h1
        · exact hall c h1
        · simp only [List.mem_singleton] at h1
          exact ⟨n % 10, Nat.mod_lt _ (by decide), h1⟩
      · rw [decValue_append_singleton, hval, digitVal_digitChar _ (Nat.mod_lt _ (by decide))]
        omega

theorem toDigits_spec (n : Nat) :
    Nat.toDigits 10 n ≠ [] ∧ AllDigitChars (Nat.toDigits 10 n) ∧
      decValue (Nat.toDigits 10 n) = n := by
  obtain ⟨l, hl, hne, hall, hval⟩ := toDigitsCore_spec (n + 1) n [] (Nat.lt_succ_self n)
  have : Nat.toDigits 10 n = l := by
    unfold Nat.toDigits
    rw [hl]; simp
  rw [this]
  exact ⟨hne, hall, hval⟩

theorem stoullChars_digits (l : List Char) (hne : l ≠ []) (hall : AllDigitChars l)
    (hlt : decValue l < 2 ^ 64) : stoullChars l = .ok (decValue l) := by
  obtain ⟨c, t, rfl⟩ := List.exists_cons_of_ne_nil hne
  obtain ⟨k, hk, hc⟩ := hall c (List.mem_cons_self _ _)
  have hsp : isSpaceC c = false := hc ▸ isSpaceC_digitChar k hk
  have hsg : c ≠ '-' ∧ c ≠ '+' := hc ▸ digitChar_ne_sign k hk
  have htw : List.takeWhile Char.isDigit (c :: t) = c :: t := by
    rw [List.takeWhile_eq_self_iff]
    intro x hx
    obtain ⟨j, hj, hxj⟩ := hall x hx
    exact hxj ▸ isDigit_digitChar j hj
  unfold stoullChars
  have hdw : List.dropWhile isSpaceC (c :: t) = c :: t := by
    simp [List.dropWhile, hsp]
  have hts : takeSign (c :: t) = (false, c :: t) := by
    simp [takeSign, hsg.1, hsg.2]
  have h2 : ¬ (2 ^ 64 ≤ decValue (c :: t)) := Nat.not_le.2 hlt
  simp only [hdw, hts, htw, List.isEmpty_cons, Bool.false_eq_true, if_false, if_neg h2]

/-- The library function `std::stoull` reads the decimal numeral of `n` back as `n`. -/
theorem stoull_toString (n : Nat) (h : n < 2 ^ 64) : stoull (toString n) = .ok n := by
  obtain ⟨hne, hall, hval⟩ := toDigits_spec n
  have hd : (toString n).data = Nat.toDigits 10 n := rfl
  unfold stoull
  rw [hd, stoullChars_digits _ hne hall (by rw [hval]; exact h), hval]

/-! ## Size and hard-link criteria, empty kinds -/

theorem firstByteAndNumber_push_front (c : Char) (rest : String) (n : Nat)
    (hc : c.toNat < 128) (hr : stoull rest = .ok n) :
    firstByteAndNumber (String.singleton c ++ rest) = .ok (c, n) := by
  have hd : (String.singleton c ++ rest).data = c :: rest.data := rfl
  unfold stoull at hr
  unfold firstByteAndNumber
  rw [hd]
  simp only [hc, if_true, hr]

theorem ctor_single (fe : String → Bool) (m : String × String) :
    filter.ctor fe [m] = filter.addModifier fe filter.init m := by
  unfold filter.ctor filter.addModifiers
  cases filter.addModifier fe filter.init m <;> rfl

theorem addModifier_size (fe : String → Bool) (f : filter) (c : Char) (rest : String) (n : Nat)
    (cmp : Comparator) (hc : prefixComparator c = some cmp) (hr : stoull rest = .ok n) :
    filter.addModifier fe f ("-size", String.singleton c ++ rest)
      = .ok { f with sizes := f.sizes ++ [sizeEntry (cmp, n)] } := by
  have h1 : ("-size" : String) ≠ "-inum" := by decide
  have h2 : ("-size" : String) ≠ "-name" := by decide
  unfold filter.addModifier
  by_cases c1 : c = '-'
  · subst c1
    have e : prefixComparator '-' = some .Less := rfl
    rw [e, Option.some.injEq] at hc
    subst hc
    simp only [h1, h2, if_false, if_true,
      firstByteAndNumber_push_front '-' rest n (by decide) hr]
    simp [sizeEntry, Comparator.code]
  by_cases c2 : c = '='
  · subst c2
    have e : prefixComparator '=' = some .Equal := rfl
    rw [e, Option.some.injEq] at hc
    subst hc
    simp only [h1, h2, if_false, if_true,
      firstByteAndNumber_push_front '=' rest n (by decide) hr]
    simp [sizeEntry, Comparator.code]
  by_cases c3 : c = '+'
  · subst c3
    have e : prefixComparator '+' = some .Greater := rfl
    rw [e, Option.some.injEq] at hc
    subst hc
    simp only [h1, h2, if_false, if_true,
      firstByteAndNumber_push_front '+' rest n (by decide) hr]
    simp [sizeEntry, Comparator.code]
  simp [prefixComparator, c1, c2, c3] at hc

theorem builtFilterApply_size (fe : String → Bool) (c : Char) (n : Nat) (cmp : Comparator)
    (hc : prefixComparator c = some cmp) (hn : n < 2 ^ 63) (file : dirent) (st : stat_t) :
    builtFilterApply fe [("-size", String.singleton c ++ toString n)] file (some st)
      = .ok (decide (cmp.holds st.st_size n)) := by
  have hn64 : n < 2 ^ 64 := lt_trans hn (by decide)
  unfold builtFilterApply
  rw [ctor_single, addModifier_size fe _ c _ n cmp hc (stoull_toString n hn64)]
  simp only [apply_some_eq, filter.init]
  simp [sizeComp_sizeEntry _ (cmp, n) hn]

/-- C2: the loop of `filter::apply` over `hardlinks` ors `st.st_nlink != hardlink` into the
result. A filter built from `-nlinks 1` alone rejects a regular file with one hard link and
accepts one with two; in general a filter with only hard-link criteria `h :: hs` accepts a
readable candidate exactly when its link count differs from at least one of them. -/
theorem nlinks_apply_tests_inequality :
    builtFilterApply (fun _ => false) [("-nlinks", "1")] ⟨5, "a", .DT_REG⟩ (some ⟨1, 0⟩)
      = .ok false ∧
    builtFilterApply (fun _ => false) [("-nlinks", "1")] ⟨5, "a", .DT_REG⟩ (some ⟨2, 0⟩)
      = .ok true ∧
    (∀ (h : Nat) (hs : List Nat) (file : dirent) (st : stat_t),
      filter.apply ⟨[], [], [], h :: hs, command.empty⟩ file (some st)
        = (h :: hs).any fun x => decide (st.st_nlink ≠ x)) := by
  refine ⟨by decide, by decide, ?_⟩
  intro h hs file st
  rw [apply_some_eq]
  simp

/-- Counterexample to C3: with `-size -9223372036854775808` (the number `2 ^ 63`) an empty
file is rejected although its size is below the number. -/
theorem size_less_two_pow_63_rejects_empty_file :
    builtFilterApply (fun _ => false) [("-size", "-9223372036854775808")]
        ⟨5, "a", .DT_REG⟩ (some ⟨1, 0⟩) = .ok false ∧
      Comparator.Less.holds 0 9223372036854775808 := by
  decide

/-- C3 (amended): for every number `n` below `2 ^ 63` and every candidate whose metadata can
be read, the filter built from the single modifier `-size =n` matches exactly the files of
size `n`, from `-size -n` exactly the strictly smaller ones and from `-size +n` exactly the
strictly larger ones. -/
theorem size_single_modifier (fe : String → Bool) (n : Nat) (hn : n < 2 ^ 63) (file : dirent)
    (st : stat_t) :
    builtFilterApply fe [("-size", "=" ++ toString n)] file (some st)
      = .ok (decide (st.st_size = (n : Int))) ∧
    builtFilterApply fe [("-size", "-" ++ toString n)] file (some st)
      = .ok (decide (st.st_size < (n : Int))) ∧
    builtFilterApply fe [("-size", "+" ++ toString n)] file (some st)
      = .ok (decide (st.st_size > (n : Int))) :=
  ⟨builtFilterApply_size fe '=' n .Equal rfl hn file st,
   builtFilterApply_size fe '-' n .Less rfl hn file st,
   builtFilterApply_size fe '+' n .Greater rfl hn file st⟩

/-- Witness of C3 (amended): the number 100 and a file of 200 bytes. -/
theorem size_single_modifier_witness :
    (100 : Nat) < 2 ^ 63 ∧
    (builtFilterApply (fun _ => false) [("-size", "=" ++ toString 100)] ⟨5, "a", .DT_REG⟩
        (some ⟨1, 200⟩) = .ok (decide ((200 : Int) = ((100 : Nat) : Int))) ∧
      builtFilterApply (fun _ => false) [("-size", "-" ++ toString 100)] ⟨5, "a", .DT_REG⟩
        (some ⟨1, 200⟩) = .ok (decide ((200 : Int) < ((100 : Nat) : Int))) ∧
      builtFilterApply (fun _ => false) [("-size", "+" ++ toString 100)] ⟨5, "a", .DT_REG⟩
        (some ⟨1, 200⟩) = .ok (decide ((200 : Int) > ((100 : Nat) : Int)))) :=
  ⟨by decide, size_single_modifier (fun _ => false) 100 (by decide) ⟨5, "a", .DT_REG⟩ ⟨1, 200⟩⟩

/-- C4: a kind of criteria whose vector is empty never excludes a candidate whose metadata
can be read: the result of `filter::apply` does not change when only the inode, the name,
the size or the hard-link count of the candidate changes and the vector of that kind is
empty, and a filter built from modifiers none of which is `-inum`, `-name`, `-size` or
`-nlinks` accepts every such candidate. -/
theorem empty_kind_never_excludes :
    (∀ (f : filter) (file : dirent) (st : stat_t) (ino : Nat), f.inodes = [] →
      f.apply { file with d_ino := ino } (some st) = f.apply file (some st)) ∧
    (∀ (f : filter) (file : dirent) (st : stat_t) (name : String), f.fileNames = [] →
      f.apply { file with d_name := name } (some st) = f.apply file (some st)) ∧
    (∀ (f : filter) (file : dirent) (st : stat_t) (size : Int), f.sizes = [] →
      f.apply file (some { st with st_size := size }) = f.apply file (some st)) ∧
    (∀ (f : filter) (file : dirent) (st : stat_t) (nlink : Nat), f.hardlinks = [] →
      f.apply file (some { st with st_nlink := nlink }) = f.apply file (some st)) ∧
    (∀ (fe : String → Bool) (ms : List (String × String)) (f : filter) (file : dirent)
        (st : stat_t),
      (∀ m ∈ ms, m.1 ≠ "-inum" ∧ m.1 ≠ "-name" ∧ m.1 ≠ "-size" ∧ m.1 ≠ "-nlinks") →
      filter.ctor fe ms = .ok f → f.apply file (some st) = true) := by
  refine ⟨?_, ?_, ?_, ?_, ?_⟩
  · intro f file st ino h
    simp [apply_some_eq, h]
  · intro f file st name h
    simp [apply_some_eq, h]
  · intro f file st size h
    simp [apply_some_eq, h]
  · intro f file st nlink h
    simp [apply_some_eq, h]
  · intro fe ms f file st hk hc
    obtain ⟨e1, e2, e3, e4⟩ := ctor_fields fe ms f hc
    have a1 : inodeCriteria ms = [] := by
      simp only [inodeCriteria, List.filterMap_eq_nil_iff]
      intro m hm
      simp [(hk m hm).1]
    have a2 : nameCriteria ms = [] := by
      simp only [nameCriteria, List.filterMap_eq_nil_iff]
      intro m hm
      simp [(hk m hm).2.1]
    have a3 : sizeCriteria ms = [] := by
      simp only [sizeCriteria, List.filterMap_eq_nil_iff]
      intro m hm
      simp [(hk m hm).2.2.1]
    have a4 : nlinksCriteria ms = [] :=
      nlinksCriteria_eq_nil ms fun m hm => (hk m hm).2.2.2
    rw [apply_some_eq, e1, e2, e3, e4, a1, a2, a3, a4]
    rfl

/-- Witness of C4: a filter with size criteria only, the inode of the candidate changed,
and a filter built from `-exec /bin/true` alone. -/
theorem empty_kind_never_excludes_witness :
    filter.apply ⟨[], [], [(100, .GREATER)], [], command.empty⟩
        { (⟨5, "a", .DT_REG⟩ : dirent) with d_ino := 9 } (some ⟨1, 200⟩)
      = filter.apply ⟨[], [], [(100, .GREATER)], [], command.empty⟩ ⟨5, "a", .DT_REG⟩
        (some ⟨1, 200⟩) ∧
    filter.apply ⟨[], [], [], [], command.ofPath "/bin/true"⟩ ⟨5, "a", .DT_REG⟩ (some ⟨1, 200⟩)
      = true :=
  ⟨empty_kind_never_excludes.1 ⟨[], [], [(100, .GREATER)], [], command.empty⟩
      ⟨5, "a", .DT_REG⟩ ⟨1, 200⟩ 9 rfl,
   empty_kind_never_excludes.2.2.2.2 (fun _ => true) [("-exec", "/bin/true")]
      ⟨[], [], [], [], command.ofPath "/bin/true"⟩ ⟨5, "a", .DT_REG⟩ ⟨1, 200⟩
      (by decide) (by decide)⟩

/-- A `-size` value whose first character is longer than one byte is rejected: the remainder
after the first byte is no number. -/
theorem size_multibyte_first_throws (fe : String → Bool) (c : Char) (rest : String)
    (hb : 128 ≤ c.toNat) :
    filter.ctor fe [("-size", String.singleton c ++ rest)]
      = .error (.thrown ("invalid size: " ++ (String.singleton c ++ rest))) := by
  have h1 : ("-size" : String) ≠ "-inum" := by decide
  have h2 : ("-size" : String) ≠ "-name" := by decide
  have hd : (String.singleton c ++ rest).data = c :: rest.data := rfl
  have hfb : firstByteAndNumber (String.singleton c ++ rest) = .error .invalid_argument := by
    unfold firstByteAndNumber
    rw [hd]
    simp only [Nat.not_lt.2 hb, if_false]
  rw [ctor_single]
  unfold filter.addModifier
  simp only [h1, h2, if_false, if_true, hfb]
  rfl

/-! ## Filter construction -/

theorem addModifiers_append (fe : String → Bool) (a b : List (String × String)) :
    ∀ f : filter, filter.addModifiers fe f (a ++ b) =
      match filter.addModifiers fe f a with
      | .ok g => filter.addModifiers fe g b
      | .error e => .error e := by
  induction a with
  | nil => intro f; rfl
  | cons m a ih =>
    intro f
    simp only [List.cons_append, filter.addModifiers]
    cases filter.addModifier fe f m with
    | error e => rfl
    | ok g => exact ih g

theorem addModifier_inum (fe : String → Bool) (f : filter) (V : String) :
    filter.addModifier fe f ("-inum", V) =
      match stoull V with
      | .ok v => .ok { f with inodes := f.inodes ++ [v] }
      | .error _ => f.throwFrom ("invalid inode number: " ++ V) := by
  unfold filter.addModifier
  simp

theorem throwFrom_of_fresh (f : filter) (what : String) (h : f.exec.argv = []) :
    f.throwFrom what = .error (.thrown what) := by
  unfold filter.throwFrom
  simp [h]

/-- A modifier other than `-exec` leaves `exec` alone, and while `exec` is the
default-constructed command every failure is a delivered `runtime_error`. -/
theorem addModifier_noexec (fe : String → Bool) (f : filter) (m : String × String)
    (hm : m.1 ≠ "-exec") (hf : f.exec.argv = []) :
    (∀ g, filter.addModifier fe f m = .ok g → g.exec = f.exec) ∧
    (∀ x, filter.addModifier fe f m = .error x → ∃ what, x = .thrown what) := by
  unfold filter.addModifier
  simp only [hm, if_false]
  refine ⟨?_, ?_⟩
  · intro g h
    split_ifs at h
    · split at h
      · simp only [Except.ok.injEq] at h
        subst h
        rfl
      · exact absurd h (throwFrom_ne_ok _ _ _)
    · simp only [Except.ok.injEq] at h
      subst h
      rfl
    · split at h
      · exact absurd h (throwFrom_ne_ok _ _ _)
      · split_ifs at h <;>
        · simp only [Except.ok.injEq] at h
          subst h
          rfl
    · split at h
      · simp only [Except.ok.injEq] at h
        subst h
        rfl
      · exact absurd h (throwFrom_ne_ok _ _ _)
    · simp only [Except.ok.injEq] at h
      subst h
      rfl
  · intro x h
    have fin : ∀ what, f.throwFrom what = .error x → ∃ w, x = .thrown w := by
      intro what hw
      rw [throwFrom_of_fresh _ _ hf] at hw
      exact ⟨_, (Except.error.inj hw).symm⟩
    split_ifs at h <;> (try split at h) <;> (try split_ifs at h) <;>
      first
        | exact fin _ h
        | exact Except.noConfusion h

theorem addModifiers_noexec (fe : String → Bool) (ms : List (String × String)) :
    ∀ f : filter, (∀ m ∈ ms, m.1 ≠ "-exec") → f.exec.argv = [] →
      (∀ g, filter.addModifiers fe f ms = .ok g → g.exec = f.exec) ∧
      (∀ x, filter.addModifiers fe f ms = .error x → ∃ what, x = .thrown what) := by
  induction ms with
  | nil =>
    intro f _ _
    refine ⟨?_, ?_⟩
    · intro g h
      simp only [filter.addModifiers, Except.ok.injEq] at h
      rw [h]
    · intro x h
      simp [filter.addModifiers] at h
  | cons m ms ih =>
    intro f hms hf
    obtain ⟨s1, s2⟩ := addModifier_noexec fe f m (hms m (List.mem_cons_self _ _)) hf
    simp only [filter.addModifiers]
    cases hm : filter.addModifier fe f m with
    | error x =>
      refine ⟨?_, ?_⟩
      · intro g h
        simp at h
      · intro y h
        simp only [Except.error.injEq] at h
        subst h
        exact s2 x hm
    | ok f1 =>
      have e1 : f1.exec = f.exec := s1 f1 hm
      obtain ⟨t1, t2⟩ := ih f1 (fun m2 h2 => hms m2 (List.mem_cons_of_mem _ h2))
        (by rw [e1]; exact hf)
      refine ⟨?_, ?_⟩
      · intro g h
        rw [t1 g h, e1]
      · intro y h
        exact t2 y h

/-- Counterexample to C6: the values `12abc`, `-1` and ` 7` are accepted as inode numbers;
the constructor stores 12, `2 ^ 64 - 1` and 7. -/
theorem inum_accepts_numeric_prefix :
    filter.ctor (fun _ => false) [("-inum", "12abc")]
      = .ok { filter.init with inodes := [12] } ∧
    filter.ctor (fun _ => false) [("-inum", "-1")]
      = .ok { filter.init with inodes := [18446744073709551615] } ∧
    filter.ctor (fun _ => false) [("-inum", " 7")]
      = .ok { filter.init with inodes := [7] } := by
  decide

/-- C6 (amended): for a modifier list containing a pair `(-inum, V)` with no `-exec`
modifier before it: when `stoull` rejects `V` (no decimal digit after leading white space
and an optional sign, as for the empty string, or a digit run above `2 ^ 64 - 1`)
construction fails with a `runtime_error`, whose message is `invalid inode number: V` when
the modifiers before the pair are accepted. For every modifier list: when `stoull` reads
`V` as `N` and the modifiers before the pair are accepted, the constructor appends `N` to
the inode criteria and goes on; and `stoull` reads the decimal numeral of every `N` below
`2 ^ 64` as `N`. -/
theorem inum_modifier (fe : String → Bool) (pre post : List (String × String)) (V : String) :
    (∀ e, stoull V = .error e → (∀ m ∈ pre, m.1 ≠ "-exec") →
      (∃ what, filter.ctor fe (pre ++ ("-inum", V) :: post) = .error (.thrown what)) ∧
      (∀ f0, filter.ctor fe pre = .ok f0 →
        filter.ctor fe (pre ++ ("-inum", V) :: post)
          = .error (.thrown ("invalid inode number: " ++ V)))) ∧
    (∀ N f0, stoull V = .ok N → filter.ctor fe pre = .ok f0 →
      filter.ctor fe (pre ++ ("-inum", V) :: post)
        = filter.addModifiers fe { f0 with inodes := f0.inodes ++ [N] } post) ∧
    (∀ N, N < 2 ^ 64 → stoull (toString N) = .ok N) ∧
    stoull "" = .error .invalid_argument ∧
    stoull "18446744073709551616" = .error .out_of_range := by
  refine ⟨?_, ?_, stoull_toString, by decide, by decide⟩
  · intro e he hpre
    obtain ⟨p1, p2⟩ := addModifiers_noexec fe pre filter.init hpre rfl
    have key : ∀ f0, filter.ctor fe pre = .ok f0 →
        filter.ctor fe (pre ++ ("-inum", V) :: post)
          = .error (.thrown ("invalid inode number: " ++ V)) := by
      intro f0 h0
      have hx : f0.exec.argv = [] := by
        rw [p1 f0 h0]
        rfl
      unfold filter.ctor at h0 ⊢
      rw [addModifiers_append, h0]
      simp only [filter.addModifiers, addModifier_inum, he, throwFrom_of_fresh _ _ hx]
    refine ⟨?_, key⟩
    cases h0 : filter.ctor fe pre with
    | ok f0 => exact ⟨_, key f0 h0⟩
    | error x =>
      obtain ⟨what, rfl⟩ := p2 x h0
      refine ⟨what, ?_⟩
      unfold filter.ctor at h0 ⊢
      rw [addModifiers_append, h0]
  · intro N f0 hN h0
    unfold filter.ctor at h0 ⊢
    rw [addModifiers_append, h0]
    simp only [filter.addModifiers, addModifier_inum, hN]

/-- Witness of C6 (amended): the values `x` (rejected) and `42` (accepted) after `-name a`. -/
theorem inum_modifier_witness :
    filter.ctor (fun _ => false) ([("-name", "a")] ++ ("-inum", "x") :: [("-name", "b")])
      = .error (.thrown ("invalid inode number: " ++ "x")) ∧
    filter.ctor (fun _ => false) ([("-name", "a")] ++ ("-inum", "42") :: [("-name", "b")])
      = filter.addModifiers (fun _ => false)
          { ({ filter.init with fileNames := ["a"] } : filter) with
            inodes := ({ filter.init with fileNames := ["a"] } : filter).inodes ++ [42] }
          [("-name", "b")] :=
  ⟨((inum_modifier (fun _ => false) [("-name", "a")] [("-name", "b")] "x").1
      .invalid_argument (by decide) (by decide)).2 { filter.init with fileNames := ["a"] }
      (by decide),
   (inum_modifier (fun _ => false) [("-name", "a")] [("-name", "b")] "42").2.1 42
      { filter.init with fileNames := ["a"] } (by decide) (by decide)⟩

/-! ## The walk -/

theorem andThen_of_none (r : Run) (k : Nat → Run) (h : r.err = none) :
    r.andThen k = ⟨r.out ++ (k r.calls).out, (k r.calls).err, (k r.calls).calls⟩ := by
  unfold Run.andThen
  rw [h]

theorem andThen_of_some (r : Run) (k : Nat → Run) (e : String) (h : r.err = some e) :
    r.andThen k = r := by
  unfold Run.andThen
  rw [h]

theorem push_fileSeparator (path name : String) :
    path.push fileSeparator ++ name = fullPathOf path name := rfl

/-- Without an exec target and with every directory readable, the loop prints the accepted
paths and nothing else. -/
theorem walkLoop_readable_noexec (os : Nat → SpawnOutcome) (f : filter)
    (hx : f.executable = false) (l : Listing) :
    ∀ (path : String) (calls : Nat), allReadable l = true →
      walkLoop os f path l calls = ⟨(matchedPaths f path l).map Event.matched, none, calls⟩ := by
  induction l with
  | nil => intro path calls _; rfl
  | cons entry st opens sub rest ihs ihr =>
    intro path calls hr
    unfold allReadable at hr
    rw [Bool.and_eq_true] at hr
    obtain ⟨hr1, hr2⟩ := hr
    unfold walkLoop matchedPaths
    by_cases hd : entry.d_name = "." ∨ entry.d_name = ".."
    · have hd' : (entry.d_name = "." || entry.d_name = "..") = true := by simpa using hd
      simp only [hd', if_true, hd, List.nil_append]
      exact ihr path calls hr2
    · have hd' : ¬ ((entry.d_name = "." || entry.d_name = "..") = true) := by simpa using hd
      simp only [hd', hd, if_false, push_fileSeparator]
      simp only [hd, if_false] at hr1
      cases ht : entry.d_type with
      | DT_DIR =>
        simp only [ht, Bool.and_eq_true] at hr1
        simp only [hr1.1, Bool.not_true, if_true]
        rw [ihs _ calls hr1.2, andThen_of_none _ _ rfl]
        simp [ihr path calls hr2]
      | DT_REG =>
        simp only
        by_cases ha : f.apply entry st = true
        · simp only [ha, if_true]
          rw [andThen_of_none _ _ rfl]
          simp only [hx, ihr path calls hr2]
          simp
        · simp only [ha, if_false]
          rw [ihr path calls hr2]
          simp
      | DT_OTHER =>
        simp only
        rw [ihr path calls hr2]
        simp

theorem stdoutLines_map_matched (ps : List String) :
    stdoutLines (ps.map Event.matched) = ps := by
  induction ps with
  | nil => rfl
  | cons p ps ih =>
    simp only [stdoutLines] at ih
    simp [stdoutLines, Event.line, ih]

/-- C7: for a tree in which every directory can be opened and a filter without an exec
target, `walk` prints exactly the full paths (parent path, `/`, entry name) of the
regular-file entries the filter accepts, each once, in depth-first listing order, and
nothing for `.`, `..` or entries of other types; on the tree with `foo.txt` (10 bytes) and
`sub/bar.txt` (200 bytes) the output with `-size +100` is the path of `bar.txt` and with
`-size -100` the path of `foo.txt`. -/
theorem walk_prints_matched_paths :
    (∀ (os : Nat → SpawnOutcome) (f : filter) (path : String) (l : Listing) (calls : Nat),
      f.executable = false → allReadable l = true →
      walk os f path true l calls = ⟨(matchedPaths f path l).map Event.matched, none, calls⟩ ∧
      stdoutLines (walk os f path true l calls).out = matchedPaths f path l) ∧
    (∀ (fe : String → Bool) (os : Nat → SpawnOutcome) (root : String),
      printedLines fe os [("-size", "+100")] root true scenarioTree
        = .ok [root ++ "/" ++ "sub" ++ "/" ++ "bar.txt"]) ∧
    (∀ (fe : String → Bool) (os : Nat → SpawnOutcome) (root : String),
      printedLines fe os [("-size", "-100")] root true scenarioTree
        = .ok [root ++ "/" ++ "foo.txt"]) := by
  have gen : ∀ (os : Nat → SpawnOutcome) (f : filter) (path : String) (l : Listing)
      (calls : Nat), f.executable = false → allReadable l = true →
      walk os f path true l calls
        = ⟨(matchedPaths f path l).map Event.matched, none, calls⟩ := by
    intro os f path l calls hx hr
    unfold walk
    simpa using walkLoop_readable_noexec os f hx l path calls hr
  refine ⟨?_, ?_, ?_⟩
  · intro os f path l calls hx hr
    refine ⟨gen os f path l calls hx hr, ?_⟩
    rw [gen os f path l calls hx hr]
    exact stdoutLines_map_matched _
  · intro fe os root
    have hc : filter.ctor fe [("-size", "+100")]
        = .ok ⟨[], [], [(100, .GREATER)], [], command.empty⟩ := by rfl
    unfold printedLines
    rw [hc]
    simp only
    rw [gen os _ root scenarioTree 0 (by decide) (by decide), stdoutLines_map_matched]
    simp [scenarioTree, matchedPaths, fullPathOf, apply_some_eq, sizeComp]
  · intro fe os root
    have hc : filter.ctor fe [("-size", "-100")]
        = .ok ⟨[], [], [(100, .LESS)], [], command.empty⟩ := by rfl
    unfold printedLines
    rw [hc]
    simp only
    rw [gen os _ root scenarioTree 0 (by decide) (by decide), stdoutLines_map_matched]
    simp [scenarioTree, matchedPaths, fullPathOf, apply_some_eq, sizeComp]

/-- Witness of C7: the scenario tree under `root` and a filter accepting sizes above 100. -/
theorem walk_prints_matched_paths_witness :
    walk (fun _ => .exited 0) ⟨[], [], [(100, .GREATER)], [], command.empty⟩ "root" true
        scenarioTree 0
      = ⟨(matchedPaths ⟨[], [], [(100, .GREATER)], [], command.empty⟩ "root"
          scenarioTree).map Event.matched, none, 0⟩ ∧
    stdoutLines (walk (fun _ => .exited 0) ⟨[], [], [(100, .GREATER)], [], command.empty⟩
        "root" true scenarioTree 0).out
      = matchedPaths ⟨[], [], [(100, .GREATER)], [], command.empty⟩ "root" scenarioTree :=
  walk_prints_matched_paths.1 (fun _ => .exited 0)
    ⟨[], [], [(100, .GREATER)], [], command.empty⟩ "root" scenarioTree 0 (by decide)
    (by decide)

/-! ## The walk as a sequence of reports -/

theorem nil_andThen (k : Nat → Run) (calls : Nat) :
    (Run.mk [] none calls).andThen k = k calls := by
  rw [andThen_of_none _ _ rfl]
  simp

theorem andThen_assoc (r : Run) (k k2 : Nat → Run) :
    (r.andThen k).andThen k2 = r.andThen fun c => (k c).andThen k2 := by
  unfold Run.andThen
  cases hr : r.err with
  | some e => simp [hr]
  | none =>
    cases hk : (k r.calls).err with
    | some e => simp [hk]
    | none => simp [hk]

theorem withoutCantAccess_andThen (r : Run) (k : Nat → Run) :
    (r.andThen k).withoutCantAccess
      = r.withoutCantAccess.andThen fun c => (k c).withoutCantAccess := by
  cases hr : r.err with
  | some e =>
    rw [andThen_of_some r k e hr, andThen_of_some r.withoutCantAccess _ e (by simpa [Run.withoutCantAccess] using hr)]
  | none =>
    rw [andThen_of_none r k hr, andThen_of_none r.withoutCantAccess _ (by simpa [Run.withoutCantAccess] using hr)]
    simp [Run.withoutCantAccess]

theorem invoke_withoutCantAccess (os : Nat → SpawnOutcome) (f : filter) (p : String)
    (calls : Nat) : (f.invoke os p calls).withoutCantAccess = f.invoke os p calls := by
  unfold filter.invoke
  cases os calls <;> simp [Run.withoutCantAccess, Event.isCantAccess]

theorem reportAll_append (os : Nat → SpawnOutcome) (f : filter) (a b : List String) :
    ∀ calls, reportAll os f (a ++ b) calls
      = (reportAll os f a calls).andThen (reportAll os f b) := by
  induction a with
  | nil => intro calls; simp [reportAll, nil_andThen]
  | cons p a ih =>
    intro calls
    simp only [List.cons_append, reportAll]
    rw [andThen_assoc]
    congr 1
    funext c
    by_cases hx : f.executable = true
    · simp only [hx, if_true]
      rw [andThen_assoc]
      congr 1
      funext c2
      exact ih c2
    · simp only [hx]
      exact ih c

/-- The walk, apart from its reports of unreadable directories, is the sequence of reports
and invocations for the accepted paths in depth-first order. -/
theorem walkLoop_flatten (os : Nat → SpawnOutcome) (f : filter) (l : Listing) :
    ∀ (path : String) (calls : Nat),
      (walkLoop os f path l calls).withoutCantAccess
        = reportAll os f (matchedPaths f path l) calls := by
  induction l with
  | nil => intro path calls; rfl
  | cons entry st opens sub rest ihs ihr =>
    intro path calls
    unfold walkLoop matchedPaths
    by_cases hd : entry.d_name = "." ∨ entry.d_name = ".."
    · have hd' : (entry.d_name = "." || entry.d_name = "..") = true := by simpa using hd
      simp only [hd', if_true, hd, List.nil_append]
      exact ihr path calls
    · have hd' : ¬ ((entry.d_name = "." || entry.d_name = "..") = true) := by simpa using hd
      simp only [hd', hd, if_false, push_fileSeparator, Bool.false_eq_true]
      cases ht : entry.d_type with
      | DT_DIR =>
        simp only
        rw [withoutCantAccess_andThen, reportAll_append]
        cases opens with
        | false =>
          simp only [Bool.not_false, if_true, Bool.false_eq_true, if_false, reportAll]
          have : (Run.mk [Event.cantAccess (fullPathOf path entry.d_name)] none
              calls).withoutCantAccess = Run.mk [] none calls := by
            simp [Run.withoutCantAccess, Event.isCantAccess]
          rw [this, nil_andThen, nil_andThen]
          exact ihr path calls
        | true =>
          simp only [Bool.not_true, Bool.false_eq_true, if_false, if_true]
          rw [ihs]
          congr 1
          funext c
          exact ihr path c
      | DT_REG =>
        simp only
        by_cases ha : f.apply entry st = true
        · simp only [ha, if_true, List.singleton_append, reportAll]
          rw [withoutCantAccess_andThen]
          have : (Run.mk [Event.matched (fullPathOf path entry.d_name)] none
              calls).withoutCantAccess
              = Run.mk [Event.matched (fullPathOf path entry.d_name)] none calls := by
            simp [Run.withoutCantAccess, Event.isCantAccess]
          rw [this]
          congr 1
          funext c
          by_cases hx : f.executable = true
          · simp only [hx, if_true]
            rw [withoutCantAccess_andThen, invoke_withoutCantAccess]
            congr 1
            funext c2
            exact ihr path c2
          · simp only [hx]
            exact ihr path c
        · simp only [ha, List.nil_append]
          exact ihr path calls
      | DT_OTHER =>
        simp only [List.nil_append]
        exact ihr path calls

theorem walkLoop_emptied (os : Nat → SpawnOutcome) (f : filter) (l : Listing) :
    ∀ (path : String) (calls : Nat),
      (walkLoop os f path l calls).withoutCantAccess
        = walkLoop os f path (emptied l) calls := by
  induction l with
  | nil => intro path calls; rfl
  | cons entry st opens sub rest ihs ihr =>
    intro path calls
    by_cases hd : entry.d_name = "." ∨ entry.d_name = ".."
    · have hd' : (entry.d_name = "." || entry.d_name = "..") = true := by simpa using hd
      have e1 : ∀ (o : Bool) (s : Listing) (r : Listing),
          walkLoop os f path (.cons entry st o s r) calls = walkLoop os f path r calls := by
        intro o s r
        rw [walkLoop]
        simp only [hd', if_true]
      unfold emptied
      split <;> rw [e1, e1] <;> exact ihr path calls
    · have hd' : (entry.d_name = "." || entry.d_name = "..") = false := by simpa using hd
      cases ht : entry.d_type with
      | DT_DIR =>
        have e1 : ∀ (o : Bool) (s : Listing) (r : Listing),
            walkLoop os f path (.cons entry st o s r) calls
              = (if !o then Run.mk [.cantAccess (fullPathOf path entry.d_name)] none calls
                  else walkLoop os f (fullPathOf path entry.d_name) s calls).andThen
                  (walkLoop os f path r) := by
          intro o s r
          rw [walkLoop]
          simp only [hd', Bool.false_eq_true, if_false, ht, push_fileSeparator]
        unfold emptied
        cases opens with
        | false =>
          simp only [ht, true_and, if_true]
          rw [e1, e1, withoutCantAccess_andThen]
          simp only [Bool.not_false, if_true, Bool.not_true, Bool.false_eq_true, if_false,
            walkLoop]
          have : (Run.mk [Event.cantAccess (fullPathOf path entry.d_name)] none
              calls).withoutCantAccess = Run.mk [] none calls := by
            simp [Run.withoutCantAccess, Event.isCantAccess]
          rw [this]
          congr 1
          funext c
          exact ihr path c
        | true =>
          simp only [ht, true_and, Bool.true_eq_false, if_false]
          rw [e1, e1, withoutCantAccess_andThen]
          simp only [Bool.not_true, Bool.false_eq_true, if_false]
          rw [ihs]
          congr 1
          funext c
          exact ihr path c
      | DT_REG =>
        have e1 : ∀ (o : Bool) (s : Listing) (r : Listing),
            walkLoop os f path (.cons entry st o s r) calls
              = if f.apply entry st then
                  (Run.mk [.matched (fullPathOf path entry.d_name)] none calls).andThen
                    fun calls =>
                      if f.executable then
                        (f.invoke os (fullPathOf path entry.d_name) calls).andThen
                          (walkLoop os f path r)
                      else walkLoop os f path r calls
                else walkLoop os f path r calls := by
          intro o s r
          rw [walkLoop]
          simp only [hd', Bool.false_eq_true, if_false, ht, push_fileSeparator]
        unfold emptied
        simp only [ht, reduceCtorEq, false_and, if_false]
        rw [e1, e1]
        by_cases ha : f.apply entry st = true
        · simp only [ha, if_true]
          rw [withoutCantAccess_andThen]
          have : (Run.mk [Event.matched (fullPathOf path entry.d_name)] none
              calls).withoutCantAccess
              = Run.mk [Event.matched (fullPathOf path entry.d_name)] none calls := by
            simp [Run.withoutCantAccess, Event.isCantAccess]
          rw [this]
          congr 1
          funext c
          by_cases hx : f.executable = true
          · simp only [hx, if_true]
            rw [withoutCantAccess_andThen, invoke_withoutCantAccess]
            congr 1
            funext c2
            exact ihr path c2
          · simp only [hx]
            exact ihr path c
        · simp only [ha]
          exact ihr path calls
      | DT_OTHER =>
        have e1 : ∀ (o : Bool) (s : Listing) (r : Listing),
            walkLoop os f path (.cons entry st o s r) calls = walkLoop os f path r calls := by
          intro o s r
          rw [walkLoop]
          simp only [hd', Bool.false_eq_true, if_false, ht]
        unfold emptied
        simp only [ht, reduceCtorEq, false_and, if_false]
        rw [e1, e1]
        exact ihr path calls

/-- C8: a directory that cannot be opened does not make the walk fail. The frame of that
directory reports it and returns without an error; the loop of the parent reports it and
goes on with the entries that follow; and apart from such reports the whole walk (printed
matches, invocations, error, in order) is the walk of the tree in which every unreadable
directory is replaced by an empty one. -/
theorem unreadable_directory_not_fatal :
    (∀ (os : Nat → SpawnOutcome) (f : filter) (path : String) (l : Listing) (calls : Nat),
      walk os f path false l calls = ⟨[.cantAccess path], none, calls⟩) ∧
    (∀ (os : Nat → SpawnOutcome) (f : filter) (path : String) (entry : dirent)
        (st : Option stat_t) (sub rest : Listing) (calls : Nat),
      entry.d_type = .DT_DIR → entry.d_name ≠ "." → entry.d_name ≠ ".." →
      walkLoop os f path (.cons entry st false sub rest) calls
        = ⟨.cantAccess (fullPathOf path entry.d_name) :: (walkLoop os f path rest calls).out,
            (walkLoop os f path rest calls).err, (walkLoop os f path rest calls).calls⟩) ∧
    (∀ (os : Nat → SpawnOutcome) (f : filter) (path : String) (l : Listing) (calls : Nat),
      (walk os f path true l calls).withoutCantAccess
        = walk os f path true (emptied l) calls) := by
  refine ⟨?_, ?_, ?_⟩
  · intro os f path l calls
    rfl
  · intro os f path entry st sub rest calls ht h1 h2
    rw [walkLoop]
    simp only [h1, h2, decide_False, Bool.or_self, Bool.false_eq_true, if_false, ht,
      Bool.not_false, if_true, push_fileSeparator]
    rw [andThen_of_none _ _ rfl]
    simp
  · intro os f path l calls
    unfold walk
    simpa using walkLoop_emptied os f l path calls

/-- Witness of C8: the directory `locked` cannot be opened and is followed by `a.txt`. -/
theorem unreadable_directory_not_fatal_witness :
    walkLoop (fun _ => .exited 0) filter.init "root"
        (.cons ⟨7, "locked", .DT_DIR⟩ none false .nil
          (.cons ⟨8, "a.txt", .DT_REG⟩ (some ⟨1, 3⟩) false .nil .nil)) 0
      = ⟨.cantAccess (fullPathOf "root" "locked") ::
            (walkLoop (fun _ => .exited 0) filter.init "root"
              (.cons ⟨8, "a.txt", .DT_REG⟩ (some ⟨1, 3⟩) false .nil .nil) 0).out,
          (walkLoop (fun _ => .exited 0) filter.init "root"
              (.cons ⟨8, "a.txt", .DT_REG⟩ (some ⟨1, 3⟩) false .nil .nil) 0).err,
          (walkLoop (fun _ => .exited 0) filter.init "root"
              (.cons ⟨8, "a.txt", .DT_REG⟩ (some ⟨1, 3⟩) false .nil .nil) 0).calls⟩ :=
  unreadable_directory_not_fatal.2.1 (fun _ => .exited 0) filter.init "root"
    ⟨7, "locked", .DT_DIR⟩ none .nil
    (.cons ⟨8, "a.txt", .DT_REG⟩ (some ⟨1, 3⟩) false .nil .nil) 0 rfl (by decide) (by decide)

/-! ## Invocation of the exec target -/

theorem invoke_of_normal (os : Nat → SpawnOutcome) (f : filter) (p : String) (calls : Nat)
    (h : (os calls).exitsNormally = true) :
    f.invoke os p calls = ⟨[.spawn [f.exec.path, p]], none, calls + 1⟩ := by
  unfold filter.invoke
  cases ho : os calls <;> simp [ho, SpawnOutcome.exitsNormally, execveArgv] at h ⊢

theorem invoke_of_abnormal (os : Nat → SpawnOutcome) (f : filter) (p : String) (calls : Nat)
    (h : (os calls).exitsNormally = false) :
    (f.invoke os p calls).err.isSome = true ∧ (f.invoke os p calls).calls = calls + 1 ∧
    (f.invoke os p calls).out
      = match os calls with
        | .forkFailed _ => []
        | _ => [.spawn [f.exec.path, p]] := by
  unfold filter.invoke
  cases ho : os calls <;> simp [ho, SpawnOutcome.exitsNormally, execveArgv] at h ⊢

theorem reportAll_noexec (os : Nat → SpawnOutcome) (f : filter) (hx : f.executable = false)
    (ps : List String) :
    ∀ calls, reportAll os f ps calls = ⟨ps.map Event.matched, none, calls⟩ := by
  induction ps with
  | nil => intro calls; rfl
  | cons p ps ih =>
    intro calls
    simp only [reportAll, hx]
    rw [andThen_of_none _ _ rfl]
    simp [ih]

theorem reportAll_normal (os : Nat → SpawnOutcome) (f : filter) (hx : f.executable = true)
    (ps : List String) :
    ∀ calls, (∀ j, j < ps.length → (os (calls + j)).exitsNormally = true) →
      reportAll os f ps calls
        = ⟨ps.flatMap fun p => [Event.matched p, Event.spawn [f.exec.path, p]], none,
            calls + ps.length⟩ := by
  induction ps with
  | nil => intro calls _; rfl
  | cons p ps ih =>
    intro calls hn
    simp only [reportAll, hx, if_true]
    rw [andThen_of_none _ _ rfl]
    simp only
    rw [invoke_of_normal os f p calls (by simpa using hn 0 (by simp)),
      andThen_of_none _ _ rfl]
    simp only
    rw [ih (calls + 1) (by
      intro j hj
      have := hn (j + 1) (by simpa using hj)
      rwa [Nat.add_assoc, Nat.add_comm 1 j])]
    simp only [List.flatMap_cons, List.cons_append, List.nil_append, List.length_cons,
      Run.mk.injEq, true_and]
    omega

theorem reportAll_abort (os : Nat → SpawnOutcome) (f : filter) (hx : f.executable = true)
    (pre : List String) (p : String) (post : List String) (calls : Nat)
    (hn : ∀ j, j < pre.length → (os (calls + j)).exitsNormally = true)
    (hf : (os (calls + pre.length)).exitsNormally = false) :
    (reportAll os f (pre ++ p :: post) calls).err.isSome = true ∧
    (reportAll os f (pre ++ p :: post) calls).out
      = (pre.flatMap fun q => [Event.matched q, Event.spawn [f.exec.path, q]]) ++
          Event.matched p ::
            (match os (calls + pre.length) with
              | .forkFailed _ => []
              | _ => [.spawn [f.exec.path, p]]) := by
  obtain ⟨a1, a2, a3⟩ := invoke_of_abnormal os f p (calls + pre.length) hf
  obtain ⟨e, he⟩ := Option.isSome_iff_exists.1 a1
  rw [reportAll_append, reportAll_normal os f hx pre calls hn, andThen_of_none _ _ rfl]
  simp only [reportAll, hx, if_true]
  rw [andThen_of_none _ _ rfl]
  simp only
  rw [andThen_of_some _ _ e he]
  simp [a1, a3]

/-! ## Exceptions leaving the walk -/

theorem EndsAtMatch.prepend (pre out : List Event) (h : EndsAtMatch out) :
    EndsAtMatch (pre ++ out) := by
  obtain ⟨before, p, tail, h1, h2⟩ := h
  exact ⟨pre ++ before, p, tail, by rw [h1, List.append_assoc], h2⟩

theorem andThen_endsAtMatch (r : Run) (k : Nat → Run) (e : String)
    (h : (r.andThen k).err = some e)
    (hr : ∀ e, r.err = some e → EndsAtMatch r.out)
    (hk : ∀ c e, (k c).err = some e → EndsAtMatch (k c).out) :
    EndsAtMatch (r.andThen k).out := by
  cases hre : r.err with
  | some e2 =>
    rw [andThen_of_some r k e2 hre]
    exact hr e2 hre
  | none =>
    rw [andThen_of_none r k hre] at h ⊢
    exact EndsAtMatch.prepend _ _ (hk r.calls e h)

theorem walkLoop_reg_step (os : Nat → SpawnOutcome) (f : filter) (path : String)
    (entry : dirent) (st : Option stat_t) (opens : Bool) (sub rest : Listing) (calls : Nat)
    (ht : entry.d_type = .DT_REG) (h1 : entry.d_name ≠ ".") (h2 : entry.d_name ≠ "..") :
    walkLoop os f path (.cons entry st opens sub rest) calls
      = if f.apply entry st then
          (Run.mk [.matched (fullPathOf path entry.d_name)] none calls).andThen fun calls =>
            if f.executable then
              (f.invoke os (fullPathOf path entry.d_name) calls).andThen
                (walkLoop os f path rest)
            else walkLoop os f path rest calls
        else walkLoop os f path rest calls := by
  rw [walkLoop]
  simp only [h1, h2, decide_False, Bool.or_self, Bool.false_eq_true, if_false, ht,
    push_fileSeparator]

/-- When an exception leaves the loop, its events end with the print of a path followed at
most by the spawn for it. -/
theorem walkLoop_err_endsAtMatch (os : Nat → SpawnOutcome) (f : filter) (l : Listing) :
    ∀ (path : String) (calls : Nat) (e : String),
      (walkLoop os f path l calls).err = some e →
      EndsAtMatch (walkLoop os f path l calls).out := by
  induction l with
  | nil =>
    intro path calls e h
    simp [walkLoop] at h
  | cons entry st opens sub rest ihs ihr =>
    intro path calls e h
    by_cases hd : entry.d_name = "." ∨ entry.d_name = ".."
    · have hd' : (entry.d_name = "." || entry.d_name = "..") = true := by simpa using hd
      have e1 : walkLoop os f path (.cons entry st opens sub rest) calls
          = walkLoop os f path rest calls := by
        rw [walkLoop]
        simp only [hd', if_true]
      rw [e1] at h ⊢
      exact ihr path calls e h
    · have hd' : (entry.d_name = "." || entry.d_name = "..") = false := by simpa using hd
      have h1 : entry.d_name ≠ "." := fun hc => hd (Or.inl hc)
      have h2 : entry.d_name ≠ ".." := fun hc => hd (Or.inr hc)
      cases ht : entry.d_type with
      | DT_DIR =>
        have e1 : walkLoop os f path (.cons entry st opens sub rest) calls
            = (if !opens then Run.mk [.cantAccess (fullPathOf path entry.d_name)] none calls
                else walkLoop os f (fullPathOf path entry.d_name) sub calls).andThen
                (walkLoop os f path rest) := by
          rw [walkLoop]
          simp only [hd', Bool.false_eq_true, if_false, ht, push_fileSeparator]
        rw [e1] at h ⊢
        refine andThen_endsAtMatch _ _ e h ?_ (fun c e2 => ihr path c e2)
        intro e2 he2
        cases opens with
        | false => simp at he2
        | true =>
          simp only [Bool.not_true, Bool.false_eq_true, if_false] at he2 ⊢
          exact ihs _ calls e2 he2
      | DT_REG =>
        rw [walkLoop_reg_step os f path entry st opens sub rest calls ht h1 h2] at h ⊢
        by_cases ha : f.apply entry st = true
        · simp only [ha, if_true] at h ⊢
          rw [andThen_of_none _ _ rfl] at h ⊢
          simp only at h ⊢
          by_cases hx : f.executable = true
          · simp only [hx, if_true] at h ⊢
            by_cases hn : (os calls).exitsNormally = true
            · rw [invoke_of_normal os f _ calls hn, andThen_of_none _ _ rfl] at h ⊢
              simp only at h ⊢
              have := ihr path (calls + 1) e h
              exact EndsAtMatch.prepend [_] _ (EndsAtMatch.prepend [_] _ this)
            · have hn2 : (os calls).exitsNormally = false := by simpa using hn
              obtain ⟨a1, a2, a3⟩ :=
                invoke_of_abnormal os f (fullPathOf path entry.d_name) calls hn2
              obtain ⟨e3, he3⟩ := Option.isSome_iff_exists.1 a1
              rw [andThen_of_some _ _ e3 he3]
              refine ⟨[], _, _, rfl, ?_⟩
              rw [a3]
              cases os calls <;> simp
          · simp only [hx] at h ⊢
            exact EndsAtMatch.prepend [_] _ (ihr path calls e h)
        · simp only [ha] at h ⊢
          exact ihr path calls e h
      | DT_OTHER =>
        have e1 : walkLoop os f path (.cons entry st opens sub rest) calls
            = walkLoop os f path rest calls := by
          rw [walkLoop]
          simp only [hd', Bool.false_eq_true, if_false, ht]
        rw [e1] at h ⊢
        exact ihr path calls e h

/-- If a sequence ending at a print has a given filtered form ending at a print, the part
before the print filters to the part before that print. -/
theorem endsAtMatch_filter_eq (out : List Event) (X : List Event) (p : String)
    (tail : List Event) (ht : tail = [] ∨ ∃ argv, tail = [Event.spawn argv])
    (h : EndsAtMatch out)
    (hf : (out.filter fun e => !e.isCantAccess) = X ++ Event.matched p :: tail) :
    ∃ before, out = before ++ Event.matched p :: tail ∧
      (before.filter fun e => !e.isCantAccess) = X := by
  obtain ⟨before, p2, tail2, h1, h2⟩ := h
  refine ⟨before, ?_, ?_⟩ <;>
  · subst h1
    rcases h2 with rfl | ⟨a2, rfl⟩ <;> rcases ht with rfl | ⟨a, rfl⟩ <;>
      simp only [List.filter_append, List.filter_cons, List.filter_nil, Event.isCantAccess,
        Bool.not_false, if_true] at hf
    · have := List.append_inj' hf rfl
      simp only [List.cons.injEq, Event.matched.injEq, and_true] at this
      first
        | exact this.1
        | (rw [this.2])
    · have hf2 : (before.filter fun e => !e.isCantAccess) ++ [Event.matched p2]
          = (X ++ [Event.matched p]) ++ [Event.spawn a] := by simpa using hf
      have := List.append_inj' hf2 rfl
      simp at this
    · have hf2 : ((before.filter fun e => !e.isCantAccess) ++ [Event.matched p2])
          ++ [Event.spawn a2] = X ++ [Event.matched p] := by simpa using hf
      have := List.append_inj' hf2 rfl
      simp at this
    · have := List.append_inj' hf rfl
      simp only [List.cons.injEq, Event.matched.injEq, Event.spawn.injEq, and_true] at this
      first
        | exact this.1
        | (obtain ⟨_, rfl, rfl⟩ := this; rfl)

theorem walk_flatten (os : Nat → SpawnOutcome) (f : filter) (path : String) (l : Listing)
    (calls : Nat) :
    (walk os f path true l calls).withoutCantAccess
      = reportAll os f (matchedPaths f path l) calls := by
  unfold walk
  simpa using walkLoop_flatten os f l path calls

/-- C9: with an exec target `E` and every child exiting normally, the walk (apart from
reports of unreadable directories) consists, for each accepted regular file in depth-first
order, of the print of its full path `P` immediately followed by one spawn with argument
vector `[E, P]`, and of nothing else; at a regular-file entry the loop prints and spawns
exactly when the filter accepts the entry and then goes on with the next entry; without an
exec target the walk consists of the prints only and contains no spawn. -/
theorem exec_spawns_once_per_match :
    (∀ (os : Nat → SpawnOutcome) (f : filter) (path : String) (l : Listing) (calls : Nat),
      f.executable = true → (∀ k, (os k).exitsNormally = true) →
      (walk os f path true l calls).withoutCantAccess
        = ⟨(matchedPaths f path l).flatMap fun p =>
              [Event.matched p, Event.spawn [f.exec.path, p]],
            none, calls + (matchedPaths f path l).length⟩) ∧
    (∀ (os : Nat → SpawnOutcome) (f : filter) (path : String) (entry : dirent)
        (st : Option stat_t) (opens : Bool) (sub rest : Listing) (calls : Nat),
      entry.d_type = .DT_REG → entry.d_name ≠ "." → entry.d_name ≠ ".." →
      f.executable = true → (os calls).exitsNormally = true →
      walkLoop os f path (.cons entry st opens sub rest) calls
        = if f.apply entry st then
            (Run.mk [.matched (fullPathOf path entry.d_name),
                .spawn [f.exec.path, fullPathOf path entry.d_name]] none
              (calls + 1)).andThen (walkLoop os f path rest)
          else walkLoop os f path rest calls) ∧
    (∀ (os : Nat → SpawnOutcome) (f : filter) (path : String) (l : Listing) (calls : Nat),
      f.executable = false →
      (walk os f path true l calls).withoutCantAccess
          = ⟨(matchedPaths f path l).map Event.matched, none, calls⟩ ∧
        ∀ argv, Event.spawn argv ∉ (walk os f path true l calls).out) := by
  refine ⟨?_, ?_, ?_⟩
  · intro os f path l calls hx hn
    rw [walk_flatten]
    exact reportAll_normal os f hx _ calls fun j _ => hn (calls + j)
  · intro os f path entry st opens sub rest calls ht h1 h2 hx hn
    rw [walkLoop_reg_step os f path entry st opens sub rest calls ht h1 h2]
    by_cases ha : f.apply entry st = true
    · simp only [ha, if_true, hx]
      rw [andThen_of_none _ _ rfl]
      simp only
      rw [invoke_of_normal os f _ calls hn]
      unfold Run.andThen
      simp
    · simp only [ha, Bool.false_eq_true, if_false]
  · intro os f path l calls hx
    have h := walk_flatten os f path l calls
    rw [reportAll_noexec os f hx] at h
    refine ⟨h, ?_⟩
    intro argv hmem
    have h2 : Event.spawn argv ∈ (walk os f path true l calls).withoutCantAccess.out := by
      simp only [Run.withoutCantAccess, List.mem_filter]
      exact ⟨hmem, rfl⟩
    rw [h] at h2
    simp at h2

/-- Witness of C9: the scenario tree with the exec target `/bin/true` and a filter
accepting sizes above 100. -/
theorem exec_spawns_once_per_match_witness :
    (walk (fun _ => .exited 1) ⟨[], [], [(100, .GREATER)], [], command.ofPath "/bin/true"⟩
        "root" true scenarioTree 0).withoutCantAccess
      = ⟨(matchedPaths ⟨[], [], [(100, .GREATER)], [], command.ofPath "/bin/true"⟩ "root"
            scenarioTree).flatMap fun p =>
              [Event.matched p,
                Event.spawn [(command.ofPath "/bin/true").path, p]],
          none,
          0 + (matchedPaths ⟨[], [], [(100, .GREATER)], [], command.ofPath "/bin/true"⟩ "root"
            scenarioTree).length⟩ :=
  exec_spawns_once_per_match.1 (fun _ => .exited 1)
    ⟨[], [], [(100, .GREATER)], [], command.ofPath "/bin/true"⟩ "root" scenarioTree 0
    (by decide) (fun _ => rfl)

/-- C10: an invocation whose child exits normally, with any exit code, raises no error and
the loop goes on with the entries that follow; an invocation whose fork fails, whose wait
fails or whose child is killed by a signal raises an error, and then the whole walk ends
with that error right after the print of that file (and its spawn, if the fork succeeded):
the accepted files before it were printed and invoked, and no event follows. -/
theorem invoke_error_aborts_walk :
    (∀ (os : Nat → SpawnOutcome) (f : filter) (p : String) (calls : Nat) (code : Nat),
      os calls = .exited code →
      f.invoke os p calls = ⟨[.spawn [f.exec.path, p]], none, calls + 1⟩) ∧
    (∀ (os : Nat → SpawnOutcome) (f : filter) (p : String) (calls : Nat),
      (os calls).exitsNormally = false → (f.invoke os p calls).err.isSome = true) ∧
    (∀ (os : Nat → SpawnOutcome) (f : filter) (path : String) (entry : dirent)
        (st : Option stat_t) (opens : Bool) (sub rest : Listing) (calls : Nat),
      entry.d_type = .DT_REG → entry.d_name ≠ "." → entry.d_name ≠ ".." →
      f.apply entry st = true → f.executable = true → (os calls).exitsNormally = true →
      walkLoop os f path (.cons entry st opens sub rest) calls
        = (Run.mk [.matched (fullPathOf path entry.d_name),
              .spawn [f.exec.path, fullPathOf path entry.d_name]] none (calls + 1)).andThen
            (walkLoop os f path rest)) ∧
    (∀ (os : Nat → SpawnOutcome) (f : filter) (path : String) (l : Listing) (calls : Nat)
        (pre : List String) (p : String) (post : List String),
      f.executable = true → matchedPaths f path l = pre ++ p :: post →
      (∀ j, j < pre.length → (os (calls + j)).exitsNormally = true) →
      (os (calls + pre.length)).exitsNormally = false →
      (walk os f path true l calls).err.isSome = true ∧
      ∃ before, (walk os f path true l calls).out
          = before ++ Event.matched p ::
              (match os (calls + pre.length) with
                | .forkFailed _ => []
                | _ => [.spawn [f.exec.path, p]]) ∧
        (before.filter fun e => !e.isCantAccess)
          = pre.flatMap fun q => [Event.matched q, Event.spawn [f.exec.path, q]]) := by
  refine ⟨?_, ?_, ?_, ?_⟩
  · intro os f p calls code h
    exact invoke_of_normal os f p calls (by rw [h]; rfl)
  · intro os f p calls h
    exact (invoke_of_abnormal os f p calls h).1
  · intro os f path entry st opens sub rest calls ht h1 h2 ha hx hn
    rw [walkLoop_reg_step os f path entry st opens sub rest calls ht h1 h2]
    simp only [ha, if_true, hx]
    rw [andThen_of_none _ _ rfl]
    simp only
    rw [invoke_of_normal os f _ calls hn]
    unfold Run.andThen
    simp
  · intro os f path l calls pre p post hx hm hn hf
    have h := walk_flatten os f path l calls
    rw [hm] at h
    obtain ⟨b1, b2⟩ := reportAll_abort os f hx pre p post calls hn hf
    rw [← h] at b1 b2
    have b1w : (walk os f path true l calls).err.isSome = true := b1
    refine ⟨b1w, ?_⟩
    obtain ⟨e, he⟩ := Option.isSome_iff_exists.1 b1w
    have hends : EndsAtMatch (walk os f path true l calls).out := by
      have hw : walk os f path true l calls = walkLoop os f path l calls := by
        unfold walk
        simp
      rw [hw] at he ⊢
      exact walkLoop_err_endsAtMatch os f l path calls e he
    refine endsAtMatch_filter_eq _ _ p _ ?_ hends b2
    cases os (calls + pre.length) <;> simp

/-- Witness of C10: two accepted files, the child for the first is killed by signal 9. -/
theorem invoke_error_aborts_walk_witness :
    (walk (fun _ => .signaled 9) ⟨[], [], [], [], command.ofPath "/bin/true"⟩ "root" true
        (.cons ⟨8, "a.txt", .DT_REG⟩ (some ⟨1, 3⟩) false .nil
          (.cons ⟨9, "b.txt", .DT_REG⟩ (some ⟨1, 3⟩) false .nil .nil)) 0).err.isSome = true ∧
    ∃ before,
      (walk (fun _ => .signaled 9) ⟨[], [], [], [], command.ofPath "/bin/true"⟩ "root" true
        (.cons ⟨8, "a.txt", .DT_REG⟩ (some ⟨1, 3⟩) false .nil
          (.cons ⟨9, "b.txt", .DT_REG⟩ (some ⟨1, 3⟩) false .nil .nil)) 0).out
        = before ++ Event.matched "root/a.txt" ::
            (match (fun _ => SpawnOutcome.signaled 9 : Nat → SpawnOutcome)
                (0 + ([] : List String).length) with
              | .forkFailed _ => []
              | _ => [.spawn [(command.ofPath "/bin/true").path, "root/a.txt"]]) ∧
      (before.filter fun e => !e.isCantAccess)
        = ([] : List String).flatMap fun q =>
            [Event.matched q, Event.spawn [(command.ofPath "/bin/true").path, q]] :=
  invoke_error_aborts_walk.2.2.2 (fun _ => .signaled 9)
    ⟨[], [], [], [], command.ofPath "/bin/true"⟩ "root"
    (.cons ⟨8, "a.txt", .DT_REG⟩ (some ⟨1, 3⟩) false .nil
      (.cons ⟨9, "b.txt", .DT_REG⟩ (some ⟨1, 3⟩) false .nil .nil)) 0
    [] "root/a.txt" ["root/b.txt"] (by decide) (by decide) (by simp) (by decide)

end OsFind
